import Mathlib

/-!
Verification of the chunked voxel world core (chunk store, terrain generation,
world mutation/serialization, and the axis-separated collision resolver).

The development is a shallow embedding of the TypeScript sources:
`src/game/ChunkManager.ts` (chunk store, generation, place/remove,
snapshot/restore), the `WorldManager` wrapper, and `CollisionManager`
(axis-separated collision and ground probe).

Modelling conventions, stated once here:

* JS `Map<string, T>` keyed by coordinate strings `"x,y,z"` (resp. `"cx,cz"`)
  is embedded as an insertion-ordered association list keyed by the integer
  triple (resp. pair) itself.  The string encoding is injective on integer
  coordinates, so nothing is lost; `Map.set` replaces an existing entry in
  place and otherwise appends, `Map.delete` removes the entry, exactly as the
  `jset` / `jdelete` operations below do.
* JS numbers are embedded as `ℤ` where the source only ever holds integers
  (block coordinates, heights) and as `ℚ` where fractional values flow
  (player positions, box extents, water level).
* `Math.sin`/`Math.cos` based terrain noise and `Math.random` draws are
  embedded as parameters of a generation environment `GenEnv`: `heightFn`
  stands for `Math.floor(SEA_LEVEL + noise(x, z))` and the `tree*`/`leaf*`
  fields for the independent random draws of the tree pass.  Every theorem
  below quantifies over all environments, hence covers the concrete noise
  and any random outcome; counterexamples use height/random values that the
  concrete noise and `Math.random` do attain.
-/

namespace MC

/-! ## Association-list model of JS `Map` -/

/-- Insertion-ordered association list, the model of a JS `Map`. -/
abbrev JMap (K V : Type) : Type := List (K × V)

/-- Model of `Map.get`. -/
def jget {K V : Type} [DecidableEq K] : JMap K V → K → Option V
  | [], _ => none
  | e :: t, k => if e.1 = k then some e.2 else jget t k

/-- Model of `Map.set`: replace in place, else append (JS insertion order). -/
def jset {K V : Type} [DecidableEq K] : JMap K V → K → V → JMap K V
  | [], k, v => [(k, v)]
  | e :: t, k, v => if e.1 = k then (k, v) :: t else e :: jset t k v

/-- Model of `Map.delete`. -/
def jdelete {K V : Type} [DecidableEq K] : JMap K V → K → JMap K V
  | [], _ => []
  | e :: t, k => if e.1 = k then jdelete t k else e :: jdelete t k

/-- Model of `Map.has`. -/
def jhas {K V : Type} [DecidableEq K] (m : JMap K V) (k : K) : Bool :=
  (jget m k).isSome

/-- The keys of a map are pairwise distinct. -/
def keysNodup {K V : Type} (m : JMap K V) : Prop :=
  (m.map Prod.fst).Nodup

/-! ## Integer ranges and fold helpers -/

/-- The inclusive integer range `[a, b]` as a list, empty when `b < a`;
the model of `for (let i = a; i <= b; i++)`. -/
def intRange (a b : ℤ) : List ℤ :=
  (List.range (b - a + 1).toNat).map (fun i : ℕ => a + (i : ℤ))

/-! ## Data model (`src/game/types.ts`) -/

/-- Integer block coordinate, the model of the position records and of the
string keys `"x,y,z"`. -/
structure Pos where
  x : ℤ
  y : ℤ
  z : ℤ
deriving DecidableEq, Repr

/-- The block materials of `BlockType`. -/
inductive BlockType where
  | grass | dirt | stone | wood | sand | snow | water
deriving DecidableEq, Repr

/-- A solid block: `{ position, type }`. -/
structure Block where
  position : Pos
  type : BlockType
deriving DecidableEq, Repr

/-- A water block: `{ position, level }`. -/
structure WaterBlock where
  position : Pos
  level : ℚ
deriving DecidableEq, Repr

/-- A chunk: `{ x, z, blocks, waterBlocks, generated }`. -/
structure Chunk where
  x : ℤ
  z : ℤ
  blocks : JMap Pos Block
  waterBlocks : JMap Pos WaterBlock
  generated : Bool
deriving DecidableEq, Repr

/-! ## Chunk store (`src/game/ChunkManager.ts`)

Constants of the source: `CHUNK_SIZE = 8`, `SEA_LEVEL = 20`,
`MAX_HEIGHT = 400`, `RENDER_DISTANCE = 3`.  They are inlined as literals
below, matching their values in `ChunkManager.ts`. -/

/-- Generation environment: the embedding of the sinusoidal float noise and
of the `Math.random()` draws of `generateChunk`.  `heightFn x z` stands for
`Math.floor(SEA_LEVEL + noise(x, z))`; `treeAt` for the per-column draw
`Math.random() < 0.03`; `treeHeightRand` for `Math.floor(Math.random() * 4)`
(taken modulo 4 below, as the source value always lies in `[0, 4)`);
`leafAt1 wx wz lx lz` / `leafAt2 wx wz lx lz` for the per-leaf-cell draws
`Math.random() < 0.7` and `Math.random() < 0.5` of the tree at column
`(wx, wz)`. -/
structure GenEnv where
  heightFn : ℤ → ℤ → ℤ
  treeAt : ℤ → ℤ → Bool
  treeHeightRand : ℤ → ℤ → ℕ
  leafAt1 : ℤ → ℤ → ℤ → ℤ → Bool
  leafAt2 : ℤ → ℤ → ℤ → ℤ → Bool

/-- `Math.max(0, Math.min(this.MAX_HEIGHT, height))` of `generateChunk`. -/
def clampedHeight (env : GenEnv) (wx wz : ℤ) : ℤ :=
  max 0 (min 400 (env.heightFn wx wz))

/-- The material chosen for terrain layer `y` of a column with clamped
height `h` (the branch ladder of `generateChunk`). -/
def terrainBlockType (h y : ℤ) : BlockType :=
  if y = h then
    if h > 20 + 160 then .snow
    else if h > 20 + 60 then .stone
    else if h ≤ 20 then .sand
    else .grass
  else if y ≥ h - 4 ∧ h > 20 then
    if h ≤ 20 + 1 then .sand else .dirt
  else .stone

/-- `setBlockInChunk`: store a block under its own coordinate key. -/
def setBlockInChunk (ch : Chunk) (wx wy wz : ℤ) (t : BlockType) : Chunk :=
  { ch with blocks := jset ch.blocks ⟨wx, wy, wz⟩ ⟨⟨wx, wy, wz⟩, t⟩ }

/-- `setWaterBlockInChunk`: store a water block under its coordinate key. -/
def setWaterBlockInChunk (ch : Chunk) (wx wy wz : ℤ) (level : ℚ) : Chunk :=
  { ch with waterBlocks := jset ch.waterBlocks ⟨wx, wy, wz⟩ ⟨⟨wx, wy, wz⟩, level⟩ }

/-- The terrain layer loop `for (y = 0; y <= clampedHeight; y++)`. -/
def terrainPass (env : GenEnv) (ch : Chunk) (wx wz : ℤ) : Chunk :=
  let h := clampedHeight env wx wz
  (intRange 0 h).foldl (fun c y => setBlockInChunk c wx y wz (terrainBlockType h y)) ch

/-- The sea-fill loop: when `clampedHeight < SEA_LEVEL`, water fills
`clampedHeight+1 .. SEA_LEVEL` at level `1.0`. -/
def waterPass (env : GenEnv) (ch : Chunk) (wx wz : ℤ) : Chunk :=
  let h := clampedHeight env wx wz
  if h < 20 then
    (intRange (h + 1) 20).foldl (fun c y => setWaterBlockInChunk c wx y wz 1) ch
  else ch

/-- The stochastic tree-placement step of `generateChunk`: a wood trunk of
height `6 + Math.floor(Math.random()*4)` above eligible columns, then a 5×5
leaf canopy (material grass) at the two layers above the trunk. -/
def treePass (env : GenEnv) (ch : Chunk) (wx wz : ℤ) : Chunk :=
  let h := clampedHeight env wx wz
  if (20 + 2 < h ∧ h < 20 + 40) ∧ env.treeAt wx wz = true then
    let tH : ℤ := 6 + ((env.treeHeightRand wx wz % 4 : ℕ) : ℤ)
    let ch1 := (intRange (h + 1) (h + tH)).foldl
      (fun c y => setBlockInChunk c wx y wz .wood) ch
    (intRange (wx - 2) (wx + 2)).foldl (fun c lx =>
      (intRange (wz - 2) (wz + 2)).foldl (fun c lz =>
        if env.leafAt1 wx wz lx lz = true ∧ ¬(lx = wx ∧ lz = wz) then
          let c1 := setBlockInChunk c lx (h + tH + 1) lz .grass
          if env.leafAt2 wx wz lx lz = true then
            setBlockInChunk c1 lx (h + tH + 2) lz .grass
          else c1
        else c) c) ch1
  else ch

/-- One column of the generation pass: terrain layers, sea fill, trees. -/
def processColumn (env : GenEnv) (ch : Chunk) (wx wz : ℤ) : Chunk :=
  treePass env (waterPass env (terrainPass env ch wx wz) wx wz) wx wz

/-- The 8×8 column footprint of chunk `(cx, cz)`, in the iteration order of
the source (`localX` outer, `localZ` inner). -/
def columnList (cx cz : ℤ) : List (ℤ × ℤ) :=
  (intRange (8 * cx) (8 * cx + 7)).foldr
    (fun wx acc => ((intRange (8 * cz) (8 * cz + 7)).map (fun wz => (wx, wz))) ++ acc) []

/-- `generateChunk`: run the generation pass over every column of the chunk.
The `try`/`catch` of the source is not represented: no statement of the
`try` body can throw (see the failure-semantics notes in the spec), so the
`catch` branch that would return an empty non-ready chunk is unreachable,
and the function always returns the fully generated chunk with
`generated = true`. -/
def generateChunk (env : GenEnv) (cx cz : ℤ) : Chunk :=
  (columnList cx cz).foldl (fun ch c => processColumn env ch c.1 c.2)
    { x := cx, z := cz, blocks := [], waterBlocks := [], generated := true }

/-- `getChunkCoord`: floor division of world coordinates by `CHUNK_SIZE`. -/
def getChunkCoord (worldX worldZ : ℚ) : ℤ × ℤ :=
  (⌊worldX / 8⌋, ⌊worldZ / 8⌋)

/-- The chunk coordinate of an integer block position. -/
def posChunkCoord (p : Pos) : ℤ × ℤ :=
  getChunkCoord (p.x : ℚ) (p.z : ℚ)

/-- The chunk cache `private chunks: Map<string, Chunk>`; the string key
`"cx,cz"` is embedded as the integer pair itself. -/
structure Store where
  chunks : JMap (ℤ × ℤ) Chunk
deriving DecidableEq, Repr

/-- A fresh `ChunkManager`. -/
def emptyStore : Store := ⟨[]⟩

/-- `getOrGenerateChunk`: the cached chunk, or generate and cache.  The
deferred `setTimeout(() => chunk.generated = true, 100)` is a no-op here
because `generateChunk` already returns the chunk with `generated = true`.
Returns the chunk together with the updated store. -/
def getOrGenerateChunk (env : GenEnv) (S : Store) (cx cz : ℤ) : Chunk × Store :=
  match jget S.chunks (cx, cz) with
  | some c => (c, S)
  | none =>
    let g := generateChunk env cx cz
    (g, ⟨jset S.chunks (cx, cz) g⟩)

/-- `updateLoadedChunks`: load every chunk within `RENDER_DISTANCE = 3`
(Chebyshev) of the player's chunk, then evict every other cached chunk. -/
def updateLoadedChunks (env : GenEnv) (S : Store) (playerX playerZ : ℚ) : Store :=
  let pc := getChunkCoord playerX playerZ
  let keys := (intRange (pc.1 - 3) (pc.1 + 3)).foldr
    (fun x acc => ((intRange (pc.2 - 3) (pc.2 + 3)).map (fun z => (x, z))) ++ acc) []
  let S1 := keys.foldl (fun s k => (getOrGenerateChunk env s k.1 k.2).2) S
  ⟨S1.chunks.filter (fun e => keys.contains e.1)⟩

/-- `placeBlock`: reject out-of-range height (`[0, MAX_HEIGHT + 20]`) and
water; otherwise get-or-generate the target chunk, delete any water at the
position, and insert the block. -/
def placeBlock (env : GenEnv) (S : Store) (p : Pos) (t : BlockType) : Store :=
  if p.y < 0 ∨ p.y > 400 + 20 then S
  else if t = .water then S
  else
    let cc := posChunkCoord p
    let cs := getOrGenerateChunk env S cc.1 cc.2
    let c := cs.1
    let c1 : Chunk :=
      { c with
        waterBlocks := jdelete c.waterBlocks p
        blocks := jset c.blocks p ⟨p, t⟩ }
    ⟨jset cs.2.chunks cc c1⟩

/-- `removeBlock`: a no-op when the chunk is not cached; otherwise delete
the block and, at or below sea level, insert a full-level water block. -/
def removeBlock (S : Store) (p : Pos) : Store :=
  let cc := posChunkCoord p
  match jget S.chunks cc with
  | none => S
  | some c =>
    let c1 : Chunk := { c with blocks := jdelete c.blocks p }
    let c2 : Chunk :=
      if p.y ≤ 20 then
        { c1 with waterBlocks := jset c1.waterBlocks p ⟨p, 1⟩ }
      else c1
    ⟨jset S.chunks cc c2⟩

/-- `getAllLoadedBlocks`: flatten the block entries of every ready chunk. -/
def getAllLoadedBlocks (S : Store) : List Block :=
  S.chunks.foldl
    (fun acc e => if e.2.generated then acc ++ e.2.blocks.map Prod.snd else acc) []

/-- `getAllLoadedWaterBlocks`: flatten the water entries of ready chunks. -/
def getAllLoadedWaterBlocks (S : Store) : List WaterBlock :=
  S.chunks.foldl
    (fun acc e => if e.2.generated then acc ++ e.2.waterBlocks.map Prod.snd else acc) []

/-- `clear`. -/
def clearStore (_S : Store) : Store := ⟨[]⟩

/-! ## World snapshots (`getWorldData` / `loadWorldData`)

The snapshot payload is `any`-typed in the source; the payload types below
embed exactly the shapes that the claims quantify over: a possibly-null
payload, a possibly-missing `chunks` field, and per-chunk `blocks` /
`waterBlocks` fields that are either falsy (absent, `null`, `undefined`,
`0`, `""`, `false` — all skipped by the `if (chunkData.blocks)` guard), a
genuine entry array, or a truthy non-array value, on which the source's
`chunkData.blocks.forEach` throws a `TypeError`. -/

/-- A `blocks` / `waterBlocks` field of a chunk record in a payload. -/
inductive JField (α : Type) where
  | missing : JField α
  | entries (l : List (Pos × α)) : JField α
  | nonArray : JField α
deriving DecidableEq

/-- One chunk record of a snapshot payload. -/
structure ChunkRecord where
  x : ℤ
  z : ℤ
  generated : Bool
  blocks : JField Block
  waterBlocks : JField WaterBlock
deriving DecidableEq

/-- The object possibly stored under the payload's `chunks` key. -/
structure PayloadObj where
  chunks : Option (List ((ℤ × ℤ) × ChunkRecord))
deriving DecidableEq

/-- A restore payload; `none` models a null/undefined payload. -/
def Payload : Type := Option PayloadObj

/-- `getWorldData`: capture every cached chunk's coordinates, entry lists,
and ready flag. -/
def getWorldData (S : Store) : Payload :=
  some ⟨some (S.chunks.map (fun e =>
    (e.1, ⟨e.2.x, e.2.z, e.2.generated, .entries e.2.blocks, .entries e.2.waterBlocks⟩)))⟩

/-- Read the entries of one payload field; `.error` models the `TypeError`
thrown by `.forEach` on a truthy non-array. -/
def fieldEntries {α : Type} : JField α → Except Unit (JMap Pos α)
  | .missing => .ok []
  | .entries l => .ok (l.foldl (fun m e => jset m e.1 e.2) [])
  | .nonArray => .error ()

/-- Load one chunk record into the accumulated chunk map, the body of the
`Object.entries(data.chunks).forEach` loop; an error carries the store as
left at the moment of the throw. -/
def loadOneChunk (acc : JMap (ℤ × ℤ) Chunk) (k : ℤ × ℤ) (r : ChunkRecord) :
    Except Store (JMap (ℤ × ℤ) Chunk) :=
  match fieldEntries r.blocks with
  | .error _ => .error ⟨acc⟩
  | .ok bs =>
    match fieldEntries r.waterBlocks with
    | .error _ => .error ⟨acc⟩
    | .ok ws => .ok (jset acc k ⟨r.x, r.z, bs, ws, r.generated || true⟩)

/-- The restore loop over the chunk records. -/
def loadChunks (acc : JMap (ℤ × ℤ) Chunk) :
    List ((ℤ × ℤ) × ChunkRecord) → Except Store Store
  | [] => .ok ⟨acc⟩
  | e :: t =>
    match loadOneChunk acc e.1 e.2 with
    | .error s => .error s
    | .ok acc1 => loadChunks acc1 t

/-- `loadWorldData`: return unchanged on a falsy payload or a falsy
`chunks` field; otherwise clear the cache and load every chunk record.
`.error` models an uncaught `TypeError` escaping the call, carrying the
partially rebuilt store. -/
def loadWorldData (S : Store) (d : Payload) : Except Store Store :=
  match d with
  | none => .ok S
  | some obj =>
    match obj.chunks with
    | none => .ok S
    | some entries => loadChunks [] entries

/-- `WorldManager.generateTerrain`: initial streaming pass around origin. -/
def generateTerrain (env : GenEnv) (S : Store) : Store :=
  updateLoadedChunks env S 0 0

/-- `WorldManager.loadWorldData`: fall back to fresh terrain generation on
a null payload, otherwise delegate to the chunk store's restore. -/
def wmLoadWorldData (env : GenEnv) (S : Store) (d : Payload) : Except Store Store :=
  match d with
  | none => .ok (generateTerrain env S)
  | some obj => loadWorldData S (some obj)

/-! ## Reachable states and mutation sequences -/

/-- States reachable by the public operations of the chunk store, starting
from a fresh manager. -/
inductive Reachable (env : GenEnv) : Store → Prop where
  | empty : Reachable env emptyStore
  | gen (S : Store) (cx cz : ℤ) :
      Reachable env S → Reachable env (getOrGenerateChunk env S cx cz).2
  | update (S : Store) (px pz : ℚ) :
      Reachable env S → Reachable env (updateLoadedChunks env S px pz)
  | place (S : Store) (p : Pos) (t : BlockType) :
      Reachable env S → Reachable env (placeBlock env S p t)
  | remove (S : Store) (p : Pos) :
      Reachable env S → Reachable env (removeBlock S p)
  | load (S : Store) (d : Payload) (S1 : Store) :
      Reachable env S → loadWorldData S d = .ok S1 → Reachable env S1
  | clear (S : Store) : Reachable env S → Reachable env (clearStore S)

/-- A mutation of the world: place, remove, or a streaming refresh (the
operation that triggers chunk generation/eviction). -/
inductive Op where
  | place (p : Pos) (t : BlockType) : Op
  | remove (p : Pos) : Op
  | update (px pz : ℚ) : Op

/-- Run one mutation against the store. -/
def applyOp (env : GenEnv) (S : Store) : Op → Store
  | .place p t => placeBlock env S p t
  | .remove p => removeBlock S p
  | .update px pz => updateLoadedChunks env S px pz

/-- Run a sequence of mutations against a fresh world. -/
def applyOps (env : GenEnv) (ops : List Op) : Store :=
  ops.foldl (fun S op => applyOp env S op) emptyStore

/-! ## Collision resolver (`CollisionManager`)

Constants of the source: `BLOCK_SIZE = 0.5`, `PLAYER_HEIGHT = 1.0`,
`PLAYER_WIDTH = 0.6`.  JS float positions are embedded as `ℚ`. -/

/-- A `THREE.Vector3`. -/
structure Vec3 where
  x : ℚ
  y : ℚ
  z : ℚ
deriving DecidableEq, Repr

/-- A `THREE.Box3`, written `lo`/`hi` for the source's `min`/`max`. -/
structure Box3 where
  lo : Vec3
  hi : Vec3
deriving DecidableEq, Repr

/-- The flattened spatial index `private blocks: Map<string, Block>`. -/
def CollisionIndex : Type := JMap Pos Block

/-- `updateBlocks`: rebuild the index from a block list. -/
def updateBlocks (blocks : List Block) : CollisionIndex :=
  blocks.foldl (fun m b => jset m b.position b) []

/-- `getPlayerBoundingBox`: width `0.6`, height `1.0`, top at eye level. -/
def getPlayerBoundingBox (p : Vec3) : Box3 :=
  ⟨⟨p.x - 3/10, p.y - 1, p.z - 3/10⟩, ⟨p.x + 3/10, p.y, p.z + 3/10⟩⟩

/-- `getBlockBoundingBox`: the cell `(x, y, z)` occupies the cube of side
`BLOCK_SIZE` centred at `(0.5x, 0.5y, 0.5z)`. -/
def getBlockBoundingBox (x y z : ℤ) : Box3 :=
  ⟨⟨(x : ℚ) / 2 - 1/4, (y : ℚ) / 2 - 1/4, (z : ℚ) / 2 - 1/4⟩,
   ⟨(x : ℚ) / 2 + 1/4, (y : ℚ) / 2 + 1/4, (z : ℚ) / 2 + 1/4⟩⟩

/-- `THREE.Box3.intersectsBox`: closed-interval overlap on all three axes
(touching counts as intersecting). -/
def intersectsBox (a b : Box3) : Bool :=
  ¬(b.hi.x < a.lo.x ∨ b.lo.x > a.hi.x ∨ b.hi.y < a.lo.y ∨ b.lo.y > a.hi.y ∨
    b.hi.z < a.lo.z ∨ b.lo.z > a.hi.z)

/-- `hasCollisionAtPosition`: scan the cell range spanned by the floored
player box corners and test each occupied cell's box for overlap. -/
def hasCollisionAtPosition (idx : CollisionIndex) (position : Vec3) : Bool :=
  let pb := getPlayerBoundingBox position
  let minBX := ⌊pb.lo.x / (1/2 : ℚ)⌋
  let maxBX := ⌊pb.hi.x / (1/2 : ℚ)⌋
  let minBY := ⌊pb.lo.y / (1/2 : ℚ)⌋
  let maxBY := ⌊pb.hi.y / (1/2 : ℚ)⌋
  let minBZ := ⌊pb.lo.z / (1/2 : ℚ)⌋
  let maxBZ := ⌊pb.hi.z / (1/2 : ℚ)⌋
  (intRange minBX maxBX).any (fun x =>
    (intRange minBY maxBY).any (fun y =>
      (intRange minBZ maxBZ).any (fun z =>
        jhas idx ⟨x, y, z⟩ && intersectsBox pb (getBlockBoundingBox x y z))))

/-- `checkCollision`: apply the velocity, then test and correct the X, Y, Z
axes in that fixed order, each test taken from the already-corrected
components and snapping the axis back to its pre-delta value on overlap. -/
def checkCollision (idx : CollisionIndex) (position velocity : Vec3) : Vec3 :=
  let newPosition : Vec3 :=
    ⟨position.x + velocity.x, position.y + velocity.y, position.z + velocity.z⟩
  let cx := if hasCollisionAtPosition idx ⟨newPosition.x, position.y, position.z⟩
    then position.x else newPosition.x
  let cy := if hasCollisionAtPosition idx ⟨cx, newPosition.y, position.z⟩
    then position.y else newPosition.y
  let cz := if hasCollisionAtPosition idx ⟨cx, cy, newPosition.z⟩
    then position.z else newPosition.z
  ⟨cx, cy, cz⟩

/-- The downward scan of `getGroundHeight`: with fuel `n + 1` the scan is
at `y = n - 10`, so fuel `211` starts at `y = 200` and fuel `0` is the
default return `PLAYER_HEIGHT`. -/
def scanDown (idx : CollisionIndex) (bx bz : ℤ) : ℕ → ℚ
  | 0 => 1
  | n + 1 =>
    let y : ℤ := (n : ℤ) - 10
    if jhas idx ⟨bx, y, bz⟩ then ((y : ℚ) + 1) * (1/2) + 1
    else scanDown idx bx bz n

/-- `getGroundHeight`: scan `y = 200` down to `y = -10` in the column of
`(x, z)` and return one block-unit above the first hit plus the player
height, defaulting to the minimum stand height. -/
def getGroundHeight (idx : CollisionIndex) (x z : ℚ) : ℚ :=
  scanDown idx ⌊x / (1/2 : ℚ)⌋ ⌊z / (1/2 : ℚ)⌋ 211

/-! ## Structural invariants of the generation pass -/

/-- The position lies in the 8×8 footprint of chunk `(cx, cz)`. -/
def inFootprint (cx cz : ℤ) (p : Pos) : Prop :=
  8 * cx ≤ p.x ∧ p.x ≤ 8 * cx + 7 ∧ 8 * cz ≤ p.z ∧ p.z ≤ 8 * cz + 7

/-- The position lies in the footprint widened by the 2-block leaf-canopy
overhang on each side. -/
def inBand (cx cz : ℤ) (p : Pos) : Prop :=
  8 * cx - 2 ≤ p.x ∧ p.x ≤ 8 * cx + 9 ∧ 8 * cz - 2 ≤ p.z ∧ p.z ≤ 8 * cz + 9

/-- Invariant of the water entries during generation of chunk `(cx, cz)`:
keyed by their own position, level `1.0`, inside the footprint, strictly
above their column's surface, and at or below sea level. -/
def GenWaterInv (env : GenEnv) (cx cz : ℤ) (ch : Chunk) : Prop :=
  ∀ e ∈ ch.waterBlocks, e.1 = e.2.position ∧ e.2.level = 1 ∧
    inFootprint cx cz e.2.position ∧
    clampedHeight env e.2.position.x e.2.position.z < e.2.position.y ∧
    e.2.position.y ≤ 20

/-- Invariant of the block entries during generation of chunk `(cx, cz)`:
keyed by their own position, inside the widened band, and any entry at or
below sea level is a terrain layer of its own in-footprint column. -/
def GenBlockInv (env : GenEnv) (cx cz : ℤ) (ch : Chunk) : Prop :=
  ∀ e ∈ ch.blocks, e.1 = e.2.position ∧ inBand cx cz e.2.position ∧
    (e.2.position.y ≤ 20 →
      inFootprint cx cz e.2.position ∧
      e.2.position.y ≤ clampedHeight env e.2.position.x e.2.position.z)

/-- Combined structural invariant of a chunk during its generation pass. -/
def GoodGen (env : GenEnv) (cx cz : ℤ) (ch : Chunk) : Prop :=
  GenWaterInv env cx cz ch ∧ GenBlockInv env cx cz ch ∧
  keysNodup ch.blocks ∧ keysNodup ch.waterBlocks ∧
  ch.x = cx ∧ ch.z = cz ∧ ch.generated = true

/-- A column inside the chunk's own footprint. -/
def colInFootprint (cx cz wx wz : ℤ) : Prop :=
  8 * cx ≤ wx ∧ wx ≤ 8 * cx + 7 ∧ 8 * cz ≤ wz ∧ wz ≤ 8 * cz + 7

/-! ## Water placement inside the generation pass -/

/-! ## Characterisation of the ground-height scan -/

/-! ## Store invariant: block/water exclusivity -/

/-- Per-chunk part of the store invariant: the chunk is keyed by its own
coordinates, water entries sit at or below sea level in the chunk's own
footprint, block entries at or below sea level sit in the chunk's own
footprint, and no key is both solid and water inside the chunk. -/
def ChunkStoreInv (ck : ℤ × ℤ) (c : Chunk) : Prop :=
  ck = (c.x, c.z) ∧
  (∀ e ∈ c.waterBlocks, e.1 = e.2.position ∧ e.2.position.y ≤ 20 ∧
    posChunkCoord e.2.position = ck) ∧
  (∀ e ∈ c.blocks, e.1 = e.2.position ∧
    (e.2.position.y ≤ 20 → posChunkCoord e.2.position = ck)) ∧
  (∀ p : Pos, jhas c.blocks p = true → jhas c.waterBlocks p = true → False)

/-- Whole-store invariant. -/
def StoreInv (S : Store) : Prop :=
  keysNodup S.chunks ∧ ∀ e ∈ S.chunks, ChunkStoreInv e.1 e.2

/-- Some cached chunk's blocks map holds the key `p`. -/
def hasSolidAt (S : Store) (p : Pos) : Bool :=
  S.chunks.any (fun e => jhas e.2.blocks p)

/-- Some cached chunk's waterBlocks map holds the key `p`. -/
def hasWaterAt (S : Store) (p : Pos) : Bool :=
  S.chunks.any (fun e => jhas e.2.waterBlocks p)

/-! ## Well-formedness of reachable states and snapshot round-trip -/

/-- One cached chunk is ready and has duplicate-free key sets. -/
def WFChunkEntry (e : (ℤ × ℤ) × Chunk) : Prop :=
  e.2.generated = true ∧ keysNodup e.2.blocks ∧ keysNodup e.2.waterBlocks

/-- Reachable stores are duplicate-free and all their chunks are ready. -/
def WFStore (S : Store) : Prop :=
  keysNodup S.chunks ∧ ∀ e ∈ S.chunks, WFChunkEntry e

/-- The per-chunk snapshot record taken by `getWorldData`. -/
def snapRecord (e : (ℤ × ℤ) × Chunk) : (ℤ × ℤ) × ChunkRecord :=
  (e.1, ⟨e.2.x, e.2.z, e.2.generated, .entries e.2.blocks, .entries e.2.waterBlocks⟩)

/-! ## Tolerated restore payloads -/

/-- The payload classes whose `blocks` / `waterBlocks` fields never reach a
`.forEach` call on a non-array: every chunk record's two fields are falsy
or genuine arrays. -/
abbrev payloadFieldsOk : Payload → Prop
  | none => True
  | some obj =>
    match obj.chunks with
    | none => True
    | some l => ∀ e ∈ l, e.2.blocks ≠ .nonArray ∧ e.2.waterBlocks ≠ .nonArray

/-! ## Concrete environments and states for witnesses and counterexamples -/

/-- Flat terrain at height `0` everywhere, no trees: the random draws all
miss and the noise floor sits at the sea floor (heights near `0` are
attained by the concrete sinusoidal noise). -/
def envFlat : GenEnv where
  heightFn := fun _ _ => 0
  treeAt := fun _ _ => false
  treeHeightRand := fun _ _ => 0
  leafAt1 := fun _ _ _ _ => false
  leafAt2 := fun _ _ _ _ => false

/-- Height `25` (tree-eligible) at the origin column, `0` elsewhere; the
per-column tree draw fires at the origin and the leaf draw fires at the
canopy cell `(-2, -2)`. -/
def envTree : GenEnv where
  heightFn := fun x z => if x = 0 ∧ z = 0 then 25 else 0
  treeAt := fun x z => decide (x = 0 ∧ z = 0)
  treeHeightRand := fun _ _ => 0
  leafAt1 := fun _ _ lx lz => decide (lx = -2 ∧ lz = -2)
  leafAt2 := fun _ _ _ _ => false

/-- A small well-formed snapshot payload: one chunk with one block and one
water entry. -/
def payload1 : Payload :=
  some ⟨some [((0, 0), ⟨0, 0, true,
    .entries [(⟨1, 2, 3⟩, ⟨⟨1, 2, 3⟩, .stone⟩)],
    .entries [(⟨0, 10, 0⟩, ⟨⟨0, 10, 0⟩, 1⟩)]⟩)]⟩

/-- The store produced by restoring `payload1` into a fresh manager. -/
def store1 : Store :=
  ⟨[((0, 0), ⟨0, 0, [(⟨1, 2, 3⟩, ⟨⟨1, 2, 3⟩, .stone⟩)],
    [(⟨0, 10, 0⟩, ⟨⟨0, 10, 0⟩, 1⟩)], true⟩)]⟩

/-- A payload whose single chunk record has a truthy non-array `blocks`
field (for example `blocks: 5`). -/
def badPayload : Payload :=
  some ⟨some [((0, 0), ⟨0, 0, true, .nonArray, .missing⟩)]⟩

/-- A payload whose single chunk record lacks both entry lists. -/
abbrev partialPayload : Payload :=
  some ⟨some [((1, 2), ⟨1, 2, false, .missing, .missing⟩)]⟩

/-! ## Claim theorems -/

/-- The collision index holding exactly one block, at cell (0,0,0). -/
def idx1 : CollisionIndex := updateBlocks [⟨⟨0, 0, 0⟩, .stone⟩]

/-- The collision index holding one stone block at cell (0, 5, 0). -/
def idx9 : CollisionIndex := updateBlocks [⟨⟨0, 5, 0⟩, .stone⟩]

/-- C10, witness: removing at (0, 10, 0) in a store whose chunk (0,0)
holds no block at that position creates water there. -/
theorem jget_jset_self {K V : Type} [DecidableEq K] (m : JMap K V) (k : K) (v : V) :
    jget (jset m k v) k = some v := by
  induction m with
  | nil => simp [jget, jset]
  | cons e t ih =>
    by_cases h : e.1 = k
    · simp [jset, h, jget]
    · simp [jset, h, jget, ih]

theorem jget_jset_ne {K V : Type} [DecidableEq K] (m : JMap K V) (k q : K) (v : V)
    (h : q ≠ k) : jget (jset m k v) q = jget m q := by
  have h' : ¬ k = q := fun hh => h hh.symm
  induction m with
  | nil => simp [jget, jset, h']
  | cons e t ih =>
    by_cases he : e.1 = k
    · subst he
      simp [jset, jget, h']
    · by_cases hq : e.1 = q
      · simp [jset, he, jget, hq, h]
      · simp [jset, he, jget, hq, ih]

theorem jget_jdelete_self {K V : Type} [DecidableEq K] (m : JMap K V) (k : K) :
    jget (jdelete m k) k = none := by
  induction m with
  | nil => simp [jget, jdelete]
  | cons e t ih =>
    by_cases h : e.1 = k
    · simp [jdelete, h, ih]
    · simp [jdelete, h, jget, ih]

theorem jget_jdelete_ne {K V : Type} [DecidableEq K] (m : JMap K V) (k q : K)
    (h : q ≠ k) : jget (jdelete m k) q = jget m q := by
  induction m with
  | nil => simp [jdelete]
  | cons e t ih =>
    have h' : ¬ k = q := fun hh => h hh.symm
    by_cases he : e.1 = k
    · subst he
      simp [jdelete, jget, h', ih]
    · by_cases hq : e.1 = q
      · simp [jdelete, he, jget, hq, h]
      · simp [jdelete, he, jget, hq, ih]

theorem mem_jset {K V : Type} [DecidableEq K] {m : JMap K V} {k : K} {v : V} {e : K × V}
    (h : e ∈ jset m k v) : e = (k, v) ∨ e ∈ m := by
  induction m with
  | nil => simpa [jset] using h
  | cons f t ih =>
    by_cases hf : f.1 = k
    · simp only [jset, hf, if_pos rfl] at h
      rcases List.mem_cons.mp h with h | h
      · exact Or.inl h
      · exact Or.inr (List.mem_cons_of_mem _ h)
    · simp only [jset, hf, if_neg hf] at h
      rcases List.mem_cons.mp h with h | h
      · exact Or.inr (by simp [h])
      · rcases ih h with h | h
        · exact Or.inl h
        · exact Or.inr (List.mem_cons_of_mem _ h)

theorem mem_jdelete {K V : Type} [DecidableEq K] {m : JMap K V} {k : K} {e : K × V}
    (h : e ∈ jdelete m k) : e ∈ m := by
  induction m with
  | nil => simpa [jdelete] using h
  | cons f t ih =>
    by_cases hf : f.1 = k
    · simp only [jdelete, hf, if_pos rfl] at h
      exact List.mem_cons_of_mem _ (ih h)
    · simp only [jdelete, hf, if_neg hf] at h
      rcases List.mem_cons.mp h with h | h
      · exact h ▸ List.mem_cons_self _ _
      · exact List.mem_cons_of_mem _ (ih h)

theorem jget_mem {K V : Type} [DecidableEq K] {m : JMap K V} {k : K} {v : V}
    (h : jget m k = some v) : (k, v) ∈ m := by
  induction m with
  | nil => simp [jget] at h
  | cons e t ih =>
    by_cases he : e.1 = k
    · simp only [jget, if_pos he] at h
      cases h
      have : (k, e.2) = e := by rw [← he]
      rw [this]
      exact List.mem_cons_self _ _
    · simp only [jget, if_neg he] at h
      exact List.mem_cons_of_mem _ (ih h)

theorem jget_eq_none_of_not_key {K V : Type} [DecidableEq K] {m : JMap K V} {k : K}
    (h : k ∉ m.map Prod.fst) : jget m k = none := by
  induction m with
  | nil => rfl
  | cons e t ih =>
    simp only [List.map_cons, List.mem_cons] at h
    push_neg at h
    have h1 : ¬ e.1 = k := fun hh => h.1 hh.symm
    simp [jget, h1, ih h.2]

theorem mem_keys_jset {K V : Type} [DecidableEq K] {m : JMap K V} {k q : K} {v : V}
    (h : q ∈ (jset m k v).map Prod.fst) : q = k ∨ q ∈ m.map Prod.fst := by
  induction m with
  | nil => simpa [jset] using h
  | cons e t ih =>
    by_cases he : e.1 = k
    · simp only [jset, if_pos he, List.map_cons, List.mem_cons] at h
      rcases h with h | h
      · exact Or.inl h
      · refine Or.inr ?_
        simp only [List.map_cons, List.mem_cons]
        exact Or.inr h
    · simp only [jset, if_neg he, List.map_cons, List.mem_cons] at h
      rcases h with h | h
      · refine Or.inr ?_
        simp only [List.map_cons, List.mem_cons]
        exact Or.inl h
      · rcases ih h with h | h
        · exact Or.inl h
        · refine Or.inr ?_
          simp only [List.map_cons, List.mem_cons]
          exact Or.inr h

theorem keysNodup_jset {K V : Type} [DecidableEq K] {m : JMap K V} (k : K) (v : V)
    (h : keysNodup m) : keysNodup (jset m k v) := by
  induction m with
  | nil => simp [keysNodup, jset]
  | cons e t ih =>
    unfold keysNodup at h ⊢
    simp only [List.map_cons, List.nodup_cons] at h
    by_cases he : e.1 = k
    · simp only [jset]
      rw [if_pos he]
      simp only [List.map_cons, List.nodup_cons]
      exact ⟨by rw [← he]; exact h.1, h.2⟩
    · simp only [jset]
      rw [if_neg he]
      simp only [List.map_cons, List.nodup_cons]
      refine ⟨fun hmem => ?_, ih h.2⟩
      rcases mem_keys_jset hmem with hh | hh
      · exact he hh
      · exact h.1 hh

theorem jdelete_sublist {K V : Type} [DecidableEq K] (m : JMap K V) (k : K) :
    (jdelete m k).Sublist m := by
  induction m with
  | nil => simp [jdelete]
  | cons e t ih =>
    by_cases he : e.1 = k
    · simp only [jdelete, if_pos he]
      exact ih.cons _
    · simp only [jdelete, if_neg he]
      exact ih.cons₂ _

theorem keysNodup_jdelete {K V : Type} [DecidableEq K] {m : JMap K V} (k : K)
    (h : keysNodup m) : keysNodup (jdelete m k) :=
  List.Nodup.sublist ((jdelete_sublist m k).map Prod.fst) h

theorem keysNodup_filter {K V : Type} (m : JMap K V) (p : K × V → Bool)
    (h : keysNodup m) : keysNodup (m.filter p) :=
  List.Nodup.sublist ((List.filter_sublist m).map Prod.fst) h

theorem jset_eq_append {K V : Type} [DecidableEq K] {m : JMap K V} {k : K} (v : V)
    (h : k ∉ m.map Prod.fst) : jset m k v = m ++ [(k, v)] := by
  induction m with
  | nil => simp [jset]
  | cons e t ih =>
    simp only [List.map_cons, List.mem_cons] at h
    push_neg at h
    have h1 : ¬ e.1 = k := fun hh => h.1 hh.symm
    simp [jset, h1, ih h.2]

/-- Re-inserting the entries of a map with distinct keys, in order, into an
empty map rebuilds exactly the same list. -/
theorem jset_rebuild_aux {K V : Type} [DecidableEq K] (m acc : JMap K V)
    (h : keysNodup (acc ++ m)) :
    m.foldl (fun a e => jset a e.1 e.2) acc = acc ++ m := by
  induction m generalizing acc with
  | nil => simp
  | cons e t ih =>
    have hk : e.1 ∉ acc.map Prod.fst := by
      unfold keysNodup at h
      rw [List.map_append, List.nodup_append] at h
      intro hmem
      exact h.2.2 hmem (by simp)
    have hstep : jset acc e.1 e.2 = acc ++ [e] := by
      rw [jset_eq_append e.2 hk]
    rw [List.foldl_cons, hstep, ih (acc ++ [e]) (by simpa using h)]
    simp

theorem jset_rebuild {K V : Type} [DecidableEq K] (m : JMap K V) (h : keysNodup m) :
    m.foldl (fun a e => jset a e.1 e.2) ([] : JMap K V) = m := by
  simpa using jset_rebuild_aux m [] (by simpa [keysNodup] using h)

theorem keysNodup_nil {K V : Type} : keysNodup ([] : JMap K V) := by
  simp [keysNodup]

theorem keysNodup_fold_jset {K V : Type} [DecidableEq K] (l : List (K × V)) :
    keysNodup (l.foldl (fun a e => jset a e.1 e.2) ([] : JMap K V)) := by
  have h : ∀ acc : JMap K V, keysNodup acc →
      keysNodup (l.foldl (fun a e => jset a e.1 e.2) acc) := by
    induction l with
    | nil => intro acc h; simpa using h
    | cons e t ih => intro acc h; exact ih _ (keysNodup_jset e.1 e.2 h)
  exact h [] keysNodup_nil

theorem keysNodup_unique {K V : Type} {m : JMap K V} (h : keysNodup m)
    {k : K} {v w : V} (hv : (k, v) ∈ m) (hw : (k, w) ∈ m) : v = w := by
  induction m with
  | nil => simp at hv
  | cons e t ih =>
    unfold keysNodup at h
    simp only [List.map_cons, List.nodup_cons] at h
    rcases List.mem_cons.mp hv with hv1 | hv1 <;> rcases List.mem_cons.mp hw with hw1 | hw1
    · exact congrArg Prod.snd (hv1.trans hw1.symm)
    · exfalso
      apply h.1
      have he : e.1 = k := congrArg Prod.fst hv1.symm
      rw [he]
      exact List.mem_map_of_mem Prod.fst hw1
    · exfalso
      apply h.1
      have he : e.1 = k := congrArg Prod.fst hw1.symm
      rw [he]
      exact List.mem_map_of_mem Prod.fst hv1
    · exact ih h.2 hv1 hw1

theorem mem_intRange {a b y : ℤ} : y ∈ intRange a b ↔ a ≤ y ∧ y ≤ b := by
  unfold intRange
  simp only [List.mem_map, List.mem_range]
  constructor
  · rintro ⟨i, hi, rfl⟩
    omega
  · rintro ⟨h1, h2⟩
    exact ⟨(y - a).toNat, by omega, by omega⟩

/-- Fold preservation: a predicate maintained by every step of a `foldl`
holds of the result. -/
theorem foldl_preserve {α β : Type} {L : List α} {f : β → α → β} {P : β → Prop}
    (hstep : ∀ b a, a ∈ L → P b → P (f b a)) :
    ∀ b, P b → P (L.foldl f b) := by
  induction L with
  | nil => intro b h; simpa using h
  | cons a t ih =>
    intro b h
    exact ih (fun b' a' ha' => hstep b' a' (List.mem_cons_of_mem _ ha'))
      (f b a) (hstep b a (List.mem_cons_self _ _) h)

/-- Fold establishment: if some element of the list establishes `P` no matter
the accumulator, and every other element preserves `P`, the fold satisfies
`P`. -/
theorem foldl_establish {α β : Type} [DecidableEq α] {L : List α} {f : β → α → β}
    {P : β → Prop} {a : α} (ha : a ∈ L)
    (hset : ∀ b, P (f b a))
    (hpres : ∀ b x, x ∈ L → x ≠ a → P b → P (f b x)) :
    ∀ b, P (L.foldl f b) := by
  induction L with
  | nil => cases ha
  | cons x t ih =>
    intro b
    by_cases hx : x = a
    · subst hx
      have hall : ∀ b' x', x' ∈ t → P b' → P (f b' x') := by
        intro b' x' hx' hP
        by_cases h' : x' = x
        · subst h'; exact hset b'
        · exact hpres b' x' (List.mem_cons_of_mem _ hx') h' hP
      exact foldl_preserve hall (f b x) (hset b)
    · have ha' : a ∈ t := by
        rcases List.mem_cons.mp ha with h | h
        · exact absurd h.symm hx
        · exact h
      exact ih ha' (fun b' x' hx' => hpres b' x' (List.mem_cons_of_mem _ hx')) (f b x)

theorem mem_columnList {cx cz wx wz : ℤ} :
    (wx, wz) ∈ columnList cx cz ↔
      (8 * cx ≤ wx ∧ wx ≤ 8 * cx + 7) ∧ (8 * cz ≤ wz ∧ wz ≤ 8 * cz + 7) := by
  unfold columnList
  have key : ∀ l : List ℤ, (wx, wz) ∈ l.foldr
      (fun x acc => ((intRange (8 * cz) (8 * cz + 7)).map (fun z => (x, z))) ++ acc) [] ↔
      wx ∈ l ∧ wz ∈ intRange (8 * cz) (8 * cz + 7) := by
    intro l
    induction l with
    | nil => simp
    | cons x t ih =>
      simp only [List.foldr_cons, List.mem_append, List.mem_map, ih, List.mem_cons]
      constructor
      · rintro (⟨z, hz, he⟩ | ⟨h1, h2⟩)
        · cases he
          exact ⟨Or.inl rfl, hz⟩
        · exact ⟨Or.inr h1, h2⟩
      · rintro ⟨h1 | h1, h2⟩
        · exact Or.inl ⟨wz, h2, by rw [h1]⟩
        · exact Or.inr ⟨h1, h2⟩
  rw [key, mem_intRange, mem_intRange]

theorem inFootprint_mk {cx cz wx wy wz : ℤ} (h1 : 8 * cx ≤ wx) (h2 : wx ≤ 8 * cx + 7)
    (h3 : 8 * cz ≤ wz) (h4 : wz ≤ 8 * cz + 7) : inFootprint cx cz ⟨wx, wy, wz⟩ :=
  ⟨h1, h2, h3, h4⟩

theorem inBand_mk {cx cz wx wy wz : ℤ} (h1 : 8 * cx - 2 ≤ wx) (h2 : wx ≤ 8 * cx + 9)
    (h3 : 8 * cz - 2 ≤ wz) (h4 : wz ≤ 8 * cz + 9) : inBand cx cz ⟨wx, wy, wz⟩ :=
  ⟨h1, h2, h3, h4⟩

theorem goodGen_setBlock {env : GenEnv} {cx cz : ℤ} {ch : Chunk}
    {wx wy wz : ℤ} {t : BlockType} (h : GoodGen env cx cz ch)
    (hband : inBand cx cz ⟨wx, wy, wz⟩)
    (hlow : wy ≤ 20 → inFootprint cx cz ⟨wx, wy, wz⟩ ∧ wy ≤ clampedHeight env wx wz) :
    GoodGen env cx cz (setBlockInChunk ch wx wy wz t) := by
  obtain ⟨hw, hb, hnb, hnw, hx, hz, hg⟩ := h
  refine ⟨hw, ?_, keysNodup_jset _ _ hnb, hnw, hx, hz, hg⟩
  intro e he
  rcases mem_jset he with rfl | he
  · exact ⟨rfl, hband, hlow⟩
  · exact hb e he

theorem goodGen_setWater {env : GenEnv} {cx cz : ℤ} {ch : Chunk}
    {wx wy wz : ℤ} (h : GoodGen env cx cz ch)
    (hfoot : inFootprint cx cz ⟨wx, wy, wz⟩)
    (hy1 : clampedHeight env wx wz < wy) (hy2 : wy ≤ 20) :
    GoodGen env cx cz (setWaterBlockInChunk ch wx wy wz 1) := by
  obtain ⟨hw, hb, hnb, hnw, hx, hz, hg⟩ := h
  refine ⟨?_, hb, hnb, keysNodup_jset _ _ hnw, hx, hz, hg⟩
  intro e he
  rcases mem_jset he with rfl | he
  · exact ⟨rfl, rfl, hfoot, hy1, hy2⟩
  · exact hw e he

theorem goodGen_terrainPass {env : GenEnv} {cx cz wx wz : ℤ} {ch : Chunk}
    (hcol : colInFootprint cx cz wx wz) (h : GoodGen env cx cz ch) :
    GoodGen env cx cz (terrainPass env ch wx wz) := by
  unfold terrainPass
  refine foldl_preserve (fun c y hy hc => ?_) ch h
  have hy' := mem_intRange.mp hy
  obtain ⟨h1, h2, h3, h4⟩ := hcol
  refine goodGen_setBlock hc
    (inBand_mk (by omega) (by omega) (by omega) (by omega)) ?_
  intro _
  exact ⟨inFootprint_mk h1 h2 h3 h4, hy'.2⟩

theorem goodGen_waterPass {env : GenEnv} {cx cz wx wz : ℤ} {ch : Chunk}
    (hcol : colInFootprint cx cz wx wz) (h : GoodGen env cx cz ch) :
    GoodGen env cx cz (waterPass env ch wx wz) := by
  unfold waterPass
  by_cases hh : clampedHeight env wx wz < 20
  · rw [if_pos hh]
    refine foldl_preserve (fun c y hy hc => ?_) ch h
    have hy' := mem_intRange.mp hy
    obtain ⟨h1, h2, h3, h4⟩ := hcol
    exact goodGen_setWater hc (inFootprint_mk h1 h2 h3 h4) (by omega) hy'.2
  · rw [if_neg hh]
    exact h

theorem goodGen_treePass {env : GenEnv} {cx cz wx wz : ℤ} {ch : Chunk}
    (hcol : colInFootprint cx cz wx wz) (h : GoodGen env cx cz ch) :
    GoodGen env cx cz (treePass env ch wx wz) := by
  unfold treePass
  by_cases hh : (20 + 2 < clampedHeight env wx wz ∧ clampedHeight env wx wz < 20 + 40) ∧
      env.treeAt wx wz = true
  · rw [if_pos hh]
    obtain ⟨⟨hh1, hh2⟩, _⟩ := hh
    obtain ⟨h1, h2, h3, h4⟩ := hcol
    have htH : (0 : ℤ) ≤ ((env.treeHeightRand wx wz % 4 : ℕ) : ℤ) := Int.ofNat_nonneg _
    have htrunk : GoodGen env cx cz ((intRange (clampedHeight env wx wz + 1)
        (clampedHeight env wx wz + (6 + ((env.treeHeightRand wx wz % 4 : ℕ) : ℤ)))).foldl
        (fun c y => setBlockInChunk c wx y wz .wood) ch) := by
      refine foldl_preserve (fun c y hy hc => ?_) ch h
      have hy' := mem_intRange.mp hy
      refine goodGen_setBlock hc
        (inBand_mk (by omega) (by omega) (by omega) (by omega)) ?_
      intro hy20
      exact absurd hy20 (by omega)
    refine foldl_preserve (fun c lx hlx hc => ?_) _ htrunk
    have hlx' := mem_intRange.mp hlx
    refine foldl_preserve (fun c' lz hlz hc' => ?_) c hc
    have hlz' := mem_intRange.mp hlz
    by_cases hleaf : env.leafAt1 wx wz lx lz = true ∧ ¬(lx = wx ∧ lz = wz)
    · rw [if_pos hleaf]
      have hone : GoodGen env cx cz
          (setBlockInChunk c' lx (clampedHeight env wx wz +
            (6 + ((env.treeHeightRand wx wz % 4 : ℕ) : ℤ)) + 1) lz .grass) := by
        refine goodGen_setBlock hc'
          (inBand_mk (by omega) (by omega) (by omega) (by omega)) ?_
        intro hy20
        exact absurd hy20 (by omega)
      by_cases hleaf2 : env.leafAt2 wx wz lx lz = true
      · rw [if_pos hleaf2]
        refine goodGen_setBlock hone
          (inBand_mk (by omega) (by omega) (by omega) (by omega)) ?_
        intro hy20
        exact absurd hy20 (by omega)
      · rw [if_neg hleaf2]
        exact hone
    · rw [if_neg hleaf]
      exact hc'
  · rw [if_neg hh]
    exact h

theorem goodGen_processColumn {env : GenEnv} {cx cz wx wz : ℤ} {ch : Chunk}
    (hcol : colInFootprint cx cz wx wz) (h : GoodGen env cx cz ch) :
    GoodGen env cx cz (processColumn env ch wx wz) :=
  goodGen_treePass hcol (goodGen_waterPass hcol (goodGen_terrainPass hcol h))

theorem goodGen_generateChunk (env : GenEnv) (cx cz : ℤ) :
    GoodGen env cx cz (generateChunk env cx cz) := by
  unfold generateChunk
  refine foldl_preserve (fun ch c hc hch => ?_) _ ?_
  · have hc' : (c.1, c.2) ∈ columnList cx cz := by
      simpa using hc
    have := mem_columnList.mp hc'
    exact goodGen_processColumn ⟨this.1.1, this.1.2, this.2.1, this.2.2⟩ hch
  · exact ⟨fun e he => absurd he (List.not_mem_nil e),
      fun e he => absurd he (List.not_mem_nil e),
      keysNodup_nil, keysNodup_nil, rfl, rfl, rfl⟩

/-- Floor division by the chunk size sends every footprint coordinate to
the chunk coordinate. -/
theorem floor_div8_eq {c w : ℤ} (h1 : 8 * c ≤ w) (h2 : w ≤ 8 * c + 7) :
    ⌊(w : ℚ) / 8⌋ = c := by
  rw [Int.floor_eq_iff]
  constructor
  · rw [le_div_iff (by norm_num : (0:ℚ) < 8)]
    have h : (c * 8 : ℤ) ≤ w := by omega
    exact_mod_cast h
  · rw [div_lt_iff (by norm_num : (0:ℚ) < 8)]
    have h : w < (c + 1) * 8 := by omega
    exact_mod_cast h

theorem posChunkCoord_of_footprint {cx cz : ℤ} {p : Pos}
    (h : inFootprint cx cz p) : posChunkCoord p = (cx, cz) := by
  obtain ⟨h1, h2, h3, h4⟩ := h
  unfold posChunkCoord getChunkCoord
  rw [floor_div8_eq h1 h2, floor_div8_eq h3 h4]

theorem Pos_mk_x (a b c : ℤ) : (Pos.mk a b c).x = a := rfl

theorem Pos_mk_y (a b c : ℤ) : (Pos.mk a b c).y = b := rfl

theorem Pos_mk_z (a b c : ℤ) : (Pos.mk a b c).z = c := rfl

theorem waterBlocks_terrainPass (env : GenEnv) (ch : Chunk) (wx wz : ℤ) :
    (terrainPass env ch wx wz).waterBlocks = ch.waterBlocks := by
  unfold terrainPass
  refine foldl_preserve (P := fun c : Chunk => c.waterBlocks = ch.waterBlocks) ?_ ch rfl
  intro c y _ hc
  exact hc

theorem waterBlocks_treePass (env : GenEnv) (ch : Chunk) (wx wz : ℤ) :
    (treePass env ch wx wz).waterBlocks = ch.waterBlocks := by
  unfold treePass
  by_cases hh : (20 + 2 < clampedHeight env wx wz ∧ clampedHeight env wx wz < 20 + 40) ∧
      env.treeAt wx wz = true
  · rw [if_pos hh]
    have htrunk : ((intRange (clampedHeight env wx wz + 1)
        (clampedHeight env wx wz + (6 + ((env.treeHeightRand wx wz % 4 : ℕ) : ℤ)))).foldl
        (fun c y => setBlockInChunk c wx y wz .wood) ch).waterBlocks = ch.waterBlocks := by
      refine foldl_preserve (P := fun c : Chunk => c.waterBlocks = ch.waterBlocks) ?_ ch rfl
      intro c y _ hc
      exact hc
    refine foldl_preserve (P := fun c : Chunk => c.waterBlocks = ch.waterBlocks)
      ?_ _ htrunk
    intro c lx _ hc
    refine foldl_preserve (P := fun c' : Chunk => c'.waterBlocks = ch.waterBlocks)
      ?_ c hc
    intro c' lz _ hc'
    by_cases hleaf : env.leafAt1 wx wz lx lz = true ∧ ¬(lx = wx ∧ lz = wz)
    · rw [if_pos hleaf]
      by_cases hleaf2 : env.leafAt2 wx wz lx lz = true
      · rw [if_pos hleaf2]
        exact hc'
      · rw [if_neg hleaf2]
        exact hc'
    · rw [if_neg hleaf]
      exact hc'
  · rw [if_neg hh]

theorem jget_water_waterPass_self (env : GenEnv) (ch : Chunk) (wx wz y : ℤ)
    (hh : clampedHeight env wx wz < 20)
    (hy1 : clampedHeight env wx wz < y) (hy2 : y ≤ 20) :
    jget (waterPass env ch wx wz).waterBlocks ⟨wx, y, wz⟩ =
      some ⟨⟨wx, y, wz⟩, 1⟩ := by
  unfold waterPass
  rw [if_pos hh]
  refine foldl_establish
    (P := fun c : Chunk => jget c.waterBlocks ⟨wx, y, wz⟩ = some ⟨⟨wx, y, wz⟩, 1⟩)
    (a := y) ?_ ?_ ?_ ch
  · exact mem_intRange.mpr ⟨by omega, hy2⟩
  · intro c
    exact jget_jset_self _ _ _
  · intro c y' hy' hne hc
    have hkey : (⟨wx, y, wz⟩ : Pos) ≠ ⟨wx, y', wz⟩ := by
      intro hk
      injection hk with h1 h2 h3
      exact hne h2.symm
    calc jget (setWaterBlockInChunk c wx y' wz 1).waterBlocks ⟨wx, y, wz⟩
        = jget c.waterBlocks ⟨wx, y, wz⟩ := jget_jset_ne _ _ _ _ hkey
      _ = some ⟨⟨wx, y, wz⟩, 1⟩ := hc

theorem jget_water_processColumn_self (env : GenEnv) (ch : Chunk) (wx wz y : ℤ)
    (hh : clampedHeight env wx wz < 20)
    (hy1 : clampedHeight env wx wz < y) (hy2 : y ≤ 20) :
    jget (processColumn env ch wx wz).waterBlocks ⟨wx, y, wz⟩ =
      some ⟨⟨wx, y, wz⟩, 1⟩ := by
  unfold processColumn
  rw [waterBlocks_treePass]
  exact jget_water_waterPass_self env _ wx wz y hh hy1 hy2

theorem jget_water_processColumn_other (env : GenEnv) (ch : Chunk) (wx wz wx' wz' y : ℤ)
    (hne : ¬(wx' = wx ∧ wz' = wz)) :
    jget (processColumn env ch wx' wz').waterBlocks ⟨wx, y, wz⟩ =
      jget ch.waterBlocks ⟨wx, y, wz⟩ := by
  unfold processColumn
  rw [waterBlocks_treePass]
  unfold waterPass
  by_cases hh : clampedHeight env wx' wz' < 20
  · rw [if_pos hh]
    refine foldl_preserve
      (P := fun c : Chunk => jget c.waterBlocks ⟨wx, y, wz⟩ = jget ch.waterBlocks ⟨wx, y, wz⟩)
      ?_ _ ?_
    swap
    · show jget (terrainPass env ch wx' wz').waterBlocks ⟨wx, y, wz⟩ =
        jget ch.waterBlocks ⟨wx, y, wz⟩
      rw [waterBlocks_terrainPass]
    intro c y' _ hc
    have hkey : (⟨wx, y, wz⟩ : Pos) ≠ ⟨wx', y', wz'⟩ := by
      intro hk
      injection hk with h1 h2 h3
      exact hne ⟨h1.symm, h3.symm⟩
    calc jget (setWaterBlockInChunk c wx' y' wz' 1).waterBlocks ⟨wx, y, wz⟩
        = jget c.waterBlocks ⟨wx, y, wz⟩ := jget_jset_ne _ _ _ _ hkey
      _ = jget ch.waterBlocks ⟨wx, y, wz⟩ := hc
  · rw [if_neg hh, waterBlocks_terrainPass]

theorem jget_water_generateChunk (env : GenEnv) (cx cz wx wz y : ℤ)
    (hcol : colInFootprint cx cz wx wz)
    (hh : clampedHeight env wx wz < 20)
    (hy1 : clampedHeight env wx wz < y) (hy2 : y ≤ 20) :
    jget (generateChunk env cx cz).waterBlocks ⟨wx, y, wz⟩ =
      some ⟨⟨wx, y, wz⟩, 1⟩ := by
  unfold generateChunk
  obtain ⟨h1, h2, h3, h4⟩ := hcol
  refine foldl_establish
    (P := fun ch : Chunk => jget ch.waterBlocks ⟨wx, y, wz⟩ = some ⟨⟨wx, y, wz⟩, 1⟩)
    (a := (wx, wz)) ?_ ?_ ?_ _
  · exact mem_columnList.mpr ⟨⟨h1, h2⟩, h3, h4⟩
  · intro ch
    exact jget_water_processColumn_self env ch wx wz y hh hy1 hy2
  · intro ch c hc hne hP
    have hne' : ¬(c.1 = wx ∧ c.2 = wz) := by
      intro hcc
      exact hne (Prod.ext hcc.1 hcc.2)
    exact (jget_water_processColumn_other env ch wx wz c.1 c.2 y hne').trans hP

theorem scanDown_not_found (idx : CollisionIndex) (bx bz : ℤ) :
    ∀ n : ℕ, (∀ y : ℤ, -10 ≤ y → y ≤ (n : ℤ) - 11 → jhas idx ⟨bx, y, bz⟩ = false) →
    scanDown idx bx bz n = 1 := by
  intro n
  induction n with
  | zero =>
    intro _
    rfl
  | succ m ih =>
    intro h
    unfold scanDown
    dsimp only
    rw [h ((m : ℤ) - 10) (by omega) (by push_cast; omega)]
    simp only [Bool.false_eq_true, if_false]
    exact ih (fun y h1 h2 => h y h1 (by push_cast; push_cast at h2; omega))

theorem scanDown_found (idx : CollisionIndex) (bx bz y0 : ℤ) :
    ∀ n : ℕ, -10 ≤ y0 → y0 ≤ (n : ℤ) - 11 →
    jhas idx ⟨bx, y0, bz⟩ = true →
    (∀ y : ℤ, y0 < y → y ≤ (n : ℤ) - 11 → jhas idx ⟨bx, y, bz⟩ = false) →
    scanDown idx bx bz n = ((y0 : ℚ) + 1) * (1/2) + 1 := by
  intro n
  induction n with
  | zero =>
    intro h1 h2 _ _
    exact absurd h2 (by push_cast; omega)
  | succ m ih =>
    intro h1 h2 h3 h4
    unfold scanDown
    dsimp only
    by_cases hy : y0 = (m : ℤ) - 10
    · rw [← hy, h3]
      simp only [if_true]
    · have hlt : y0 < (m : ℤ) - 10 := by
        push_cast at h2
        omega
      rw [h4 ((m : ℤ) - 10) hlt (by push_cast; omega)]
      simp only [Bool.false_eq_true, if_false]
      exact ih h1 (by push_cast; omega) h3
        (fun y hy1 hy2 => h4 y hy1 (by push_cast; push_cast at hy2; omega))

theorem jhas_some {K V : Type} [DecidableEq K] {m : JMap K V} {k : K}
    (h : jhas m k = true) : ∃ v, jget m k = some v := by
  unfold jhas at h
  exact Option.isSome_iff_exists.mp h

theorem chunkStoreInv_generate (env : GenEnv) (cx cz : ℤ) :
    ChunkStoreInv (cx, cz) (generateChunk env cx cz) := by
  obtain ⟨hw, hb, hnb, hnw, hx, hz, hg⟩ := goodGen_generateChunk env cx cz
  refine ⟨by rw [hx, hz], ?_, ?_, ?_⟩
  · intro e he
    obtain ⟨hkey, _, hfoot, _, hy⟩ := hw e he
    exact ⟨hkey, hy, posChunkCoord_of_footprint hfoot⟩
  · intro e he
    obtain ⟨hkey, _, hlow⟩ := hb e he
    exact ⟨hkey, fun hy => posChunkCoord_of_footprint (hlow hy).1⟩
  · intro p hpb hpw
    obtain ⟨b, hbv⟩ := jhas_some hpb
    obtain ⟨w, hwv⟩ := jhas_some hpw
    obtain ⟨hbkey, _, hblow⟩ := hb _ (jget_mem hbv)
    obtain ⟨hwkey, _, _, hwy1, hwy2⟩ := hw _ (jget_mem hwv)
    have hbpos : b.position = p := hbkey.symm
    have hwpos : w.position = p := hwkey.symm
    rw [hbpos] at hblow
    rw [hwpos] at hwy1 hwy2
    have := (hblow hwy2).2
    omega

theorem storeInv_getOrGenerate (env : GenEnv) (S : Store) (cx cz : ℤ)
    (h : StoreInv S) :
    StoreInv (getOrGenerateChunk env S cx cz).2 ∧
    ChunkStoreInv (cx, cz) (getOrGenerateChunk env S cx cz).1 := by
  unfold getOrGenerateChunk
  cases hj : jget S.chunks (cx, cz) with
  | some c =>
    simp only [hj]
    exact ⟨h, h.2 _ (jget_mem hj)⟩
  | none =>
    simp only [hj]
    refine ⟨⟨keysNodup_jset _ _ h.1, ?_⟩, chunkStoreInv_generate env cx cz⟩
    intro e he
    rcases mem_jset he with rfl | he
    · exact chunkStoreInv_generate env cx cz
    · exact h.2 e he

theorem storeInv_placeBlock (env : GenEnv) (S : Store) (p : Pos) (t : BlockType)
    (h : StoreInv S) : StoreInv (placeBlock env S p t) := by
  unfold placeBlock
  by_cases h1 : p.y < 0 ∨ p.y > 400 + 20
  · rw [if_pos h1]
    exact h
  · rw [if_neg h1]
    by_cases h2 : t = .water
    · rw [if_pos h2]
      exact h
    · rw [if_neg h2]
      obtain ⟨hS, hcinv⟩ :=
        storeInv_getOrGenerate env S (posChunkCoord p).1 (posChunkCoord p).2 h
      set cs := getOrGenerateChunk env S (posChunkCoord p).1 (posChunkCoord p).2 with hcs
      refine ⟨keysNodup_jset _ _ hS.1, ?_⟩
      intro e he
      rcases mem_jset he with rfl | he
      · refine ⟨hcinv.1, ?_, ?_, ?_⟩
        · intro e' he'
          exact hcinv.2.1 e' (mem_jdelete he')
        · intro e' he'
          rcases mem_jset he' with rfl | he'
          · exact ⟨rfl, fun _ => rfl⟩
          · exact hcinv.2.2.1 e' he'
        · intro q hqb hqw
          by_cases hq : q = p
          · subst hq
            obtain ⟨w, hwv⟩ := jhas_some hqw
            rw [jget_jdelete_self] at hwv
            cases hwv
          · have hqb' : jhas cs.1.blocks q = true := by
              unfold jhas at hqb ⊢
              rw [jget_jset_ne _ _ _ _ hq] at hqb
              exact hqb
            have hqw' : jhas cs.1.waterBlocks q = true := by
              unfold jhas at hqw ⊢
              rw [jget_jdelete_ne _ _ _ hq] at hqw
              exact hqw
            exact hcinv.2.2.2 q hqb' hqw'
      · exact hS.2 e he

theorem storeInv_removeBlock (S : Store) (p : Pos) (h : StoreInv S) :
    StoreInv (removeBlock S p) := by
  unfold removeBlock
  cases hj : jget S.chunks (posChunkCoord p) with
  | none =>
    simp only [hj]
    exact h
  | some c =>
    simp only [hj]
    have hcinv : ChunkStoreInv (posChunkCoord p) c := h.2 _ (jget_mem hj)
    refine ⟨keysNodup_jset _ _ h.1, ?_⟩
    intro e he
    rcases mem_jset he with rfl | he
    · by_cases hy : p.y ≤ 20
      · rw [if_pos hy]
        refine ⟨hcinv.1, ?_, ?_, ?_⟩
        · intro e' he'
          rcases mem_jset he' with rfl | he'
          · exact ⟨rfl, hy, rfl⟩
          · exact hcinv.2.1 e' he'
        · intro e' he'
          exact hcinv.2.2.1 e' (mem_jdelete he')
        · intro q hqb hqw
          by_cases hq : q = p
          · subst hq
            obtain ⟨b, hbv⟩ := jhas_some hqb
            rw [jget_jdelete_self] at hbv
            cases hbv
          · have hqb' : jhas c.blocks q = true := by
              unfold jhas at hqb ⊢
              rw [jget_jdelete_ne _ _ _ hq] at hqb
              exact hqb
            have hqw' : jhas c.waterBlocks q = true := by
              unfold jhas at hqw ⊢
              rw [jget_jset_ne _ _ _ _ hq] at hqw
              exact hqw
            exact hcinv.2.2.2 q hqb' hqw'
      · rw [if_neg hy]
        refine ⟨hcinv.1, hcinv.2.1, ?_, ?_⟩
        · intro e' he'
          exact hcinv.2.2.1 e' (mem_jdelete he')
        · intro q hqb hqw
          by_cases hq : q = p
          · subst hq
            obtain ⟨b, hbv⟩ := jhas_some hqb
            rw [jget_jdelete_self] at hbv
            cases hbv
          · have hqb' : jhas c.blocks q = true := by
              unfold jhas at hqb ⊢
              rw [jget_jdelete_ne _ _ _ hq] at hqb
              exact hqb
            exact hcinv.2.2.2 q hqb' hqw
    · exact h.2 e he

theorem storeInv_filter (S : Store) (f : (ℤ × ℤ) × Chunk → Bool) (h : StoreInv S) :
    StoreInv ⟨S.chunks.filter f⟩ :=
  ⟨keysNodup_filter _ _ h.1, fun e he => h.2 e (List.mem_filter.mp he).1⟩

theorem storeInv_update (env : GenEnv) (S : Store) (px pz : ℚ) (h : StoreInv S) :
    StoreInv (updateLoadedChunks env S px pz) := by
  unfold updateLoadedChunks
  refine storeInv_filter _ _ ?_
  refine foldl_preserve (P := StoreInv) ?_ S h
  intro s k _ hs
  exact (storeInv_getOrGenerate env s k.1 k.2 hs).1

theorem storeInv_applyOps (env : GenEnv) (ops : List Op) :
    StoreInv (applyOps env ops) := by
  unfold applyOps
  refine foldl_preserve (P := StoreInv) ?_ emptyStore ?_
  · intro S op _ hS
    cases op with
    | place p t => exact storeInv_placeBlock env S p t hS
    | remove p => exact storeInv_removeBlock S p hS
    | update px pz => exact storeInv_update env S px pz hS
  · exact ⟨keysNodup_nil, fun e he => absurd he (List.not_mem_nil e)⟩

theorem storeInv_exclusive {S : Store} (h : StoreInv S) (p : Pos) :
    (hasSolidAt S p && hasWaterAt S p) = false := by
  cases hb : hasSolidAt S p with
  | false => rfl
  | true =>
    cases hw : hasWaterAt S p with
    | false => rfl
    | true =>
      exfalso
      rw [hasSolidAt, List.any_eq_true] at hb
      rw [hasWaterAt, List.any_eq_true] at hw
      obtain ⟨eb, hebmem, hebb⟩ := hb
      obtain ⟨ew, hewmem, heww⟩ := hw
      have hib := h.2 eb hebmem
      have hiw := h.2 ew hewmem
      obtain ⟨b, hbv⟩ := jhas_some hebb
      obtain ⟨w, hwv⟩ := jhas_some heww
      obtain ⟨hbkey, hblow⟩ := hib.2.2.1 _ (jget_mem hbv)
      obtain ⟨hwkey, hwy, hwcc⟩ := hiw.2.1 _ (jget_mem hwv)
      have hbpos : b.position = p := hbkey.symm
      have hwpos : w.position = p := hwkey.symm
      rw [hbpos] at hblow
      rw [hwpos] at hwy hwcc
      have hkeyeq : eb.1 = ew.1 := by
        rw [← hblow hwy, ← hwcc]
      have hchunkeq : eb.2 = ew.2 := by
        have hb' : (eb.1, eb.2) ∈ S.chunks := by
          simpa using hebmem
        have hw' : (eb.1, ew.2) ∈ S.chunks := by
          rw [hkeyeq]
          simpa using hewmem
        exact keysNodup_unique h.1 hb' hw'
      refine hib.2.2.2 p ?_ ?_
      · unfold jhas
        rw [hbv]
        rfl
      · unfold jhas
        rw [hchunkeq, hwv]
        rfl

theorem wfChunkEntry_generate (env : GenEnv) (cx cz : ℤ) :
    WFChunkEntry ((cx, cz), generateChunk env cx cz) := by
  obtain ⟨_, _, hnb, hnw, _, _, hg⟩ := goodGen_generateChunk env cx cz
  exact ⟨hg, hnb, hnw⟩

theorem wf_getOrGenerate (env : GenEnv) (S : Store) (cx cz : ℤ) (h : WFStore S) :
    WFStore (getOrGenerateChunk env S cx cz).2 ∧
    WFChunkEntry ((cx, cz), (getOrGenerateChunk env S cx cz).1) := by
  unfold getOrGenerateChunk
  cases hj : jget S.chunks (cx, cz) with
  | some c =>
    simp only [hj]
    have := h.2 _ (jget_mem hj)
    exact ⟨h, this⟩
  | none =>
    simp only [hj]
    refine ⟨⟨keysNodup_jset _ _ h.1, ?_⟩, wfChunkEntry_generate env cx cz⟩
    intro e he
    rcases mem_jset he with rfl | he
    · exact wfChunkEntry_generate env cx cz
    · exact h.2 e he

theorem wf_filter (S : Store) (f : (ℤ × ℤ) × Chunk → Bool) (h : WFStore S) :
    WFStore ⟨S.chunks.filter f⟩ :=
  ⟨keysNodup_filter _ _ h.1, fun e he => h.2 e (List.mem_filter.mp he).1⟩

theorem wf_update (env : GenEnv) (S : Store) (px pz : ℚ) (h : WFStore S) :
    WFStore (updateLoadedChunks env S px pz) := by
  unfold updateLoadedChunks
  refine wf_filter _ _ ?_
  refine foldl_preserve (P := WFStore) ?_ S h
  intro s k _ hs
  exact (wf_getOrGenerate env s k.1 k.2 hs).1

theorem wf_placeBlock (env : GenEnv) (S : Store) (p : Pos) (t : BlockType)
    (h : WFStore S) : WFStore (placeBlock env S p t) := by
  unfold placeBlock
  by_cases h1 : p.y < 0 ∨ p.y > 400 + 20
  · rw [if_pos h1]
    exact h
  · rw [if_neg h1]
    by_cases h2 : t = .water
    · rw [if_pos h2]
      exact h
    · rw [if_neg h2]
      obtain ⟨hS, hwfc⟩ := wf_getOrGenerate env S (posChunkCoord p).1 (posChunkCoord p).2 h
      refine ⟨keysNodup_jset _ _ hS.1, ?_⟩
      intro e he
      rcases mem_jset he with rfl | he
      · exact ⟨hwfc.1, keysNodup_jset _ _ hwfc.2.1, keysNodup_jdelete _ hwfc.2.2⟩
      · exact hS.2 e he

theorem wf_removeBlock (S : Store) (p : Pos) (h : WFStore S) :
    WFStore (removeBlock S p) := by
  unfold removeBlock
  cases hj : jget S.chunks (posChunkCoord p) with
  | none =>
    simp only [hj]
    exact h
  | some c =>
    simp only [hj]
    have hwfc : WFChunkEntry (posChunkCoord p, c) := h.2 _ (jget_mem hj)
    refine ⟨keysNodup_jset _ _ h.1, ?_⟩
    intro e he
    rcases mem_jset he with rfl | he
    · by_cases hy : p.y ≤ 20
      · rw [if_pos hy]
        exact ⟨hwfc.1, keysNodup_jdelete _ hwfc.2.1, keysNodup_jset _ _ hwfc.2.2⟩
      · rw [if_neg hy]
        exact ⟨hwfc.1, keysNodup_jdelete _ hwfc.2.1, hwfc.2.2⟩
    · exact h.2 e he

theorem fieldEntries_nodup {α : Type} {f : JField α} {m : JMap Pos α}
    (h : fieldEntries f = .ok m) : keysNodup m := by
  cases f with
  | missing =>
    cases h
    exact keysNodup_nil
  | entries l =>
    cases h
    exact keysNodup_fold_jset l
  | nonArray => cases h

theorem wf_loadChunks (l : List ((ℤ × ℤ) × ChunkRecord)) :
    ∀ (acc : JMap (ℤ × ℤ) Chunk) (S1 : Store), keysNodup acc →
    (∀ e ∈ acc, WFChunkEntry e) → loadChunks acc l = .ok S1 → WFStore S1 := by
  induction l with
  | nil =>
    intro acc S1 hn hwf hload
    cases hload
    exact ⟨hn, hwf⟩
  | cons e t ih =>
    intro acc S1 hn hwf hload
    unfold loadChunks loadOneChunk at hload
    cases hbs : fieldEntries e.2.blocks with
    | error u =>
      rw [hbs] at hload
      cases hload
    | ok bs =>
      rw [hbs] at hload
      cases hws : fieldEntries e.2.waterBlocks with
      | error u =>
        rw [hws] at hload
        cases hload
      | ok ws =>
        rw [hws] at hload
        refine ih _ S1 (keysNodup_jset _ _ hn) ?_ hload
        intro e' he'
        rcases mem_jset he' with rfl | he'
        · exact ⟨Bool.or_true _, fieldEntries_nodup hbs, fieldEntries_nodup hws⟩
        · exact hwf e' he'

theorem wf_load (S : Store) (d : Payload) (S1 : Store) (h : WFStore S)
    (hload : loadWorldData S d = .ok S1) : WFStore S1 := by
  cases d with
  | none =>
    unfold loadWorldData at hload
    cases hload
    exact h
  | some obj =>
    cases obj with
    | mk chunksField =>
      cases chunksField with
      | none =>
        unfold loadWorldData at hload
        cases hload
        exact h
      | some entries =>
        unfold loadWorldData at hload
        exact wf_loadChunks entries [] S1 keysNodup_nil
          (fun e he => absurd he (List.not_mem_nil e)) hload

theorem wf_reachable {env : GenEnv} {S : Store} (h : Reachable env S) : WFStore S := by
  induction h with
  | empty => exact ⟨keysNodup_nil, fun e he => absurd he (List.not_mem_nil e)⟩
  | gen S cx cz _ ih => exact (wf_getOrGenerate env S cx cz ih).1
  | update S px pz _ ih => exact wf_update env S px pz ih
  | place S p t _ ih => exact wf_placeBlock env S p t ih
  | remove S p _ ih => exact wf_removeBlock S p ih
  | load S d S1 _ hload ih => exact wf_load S d S1 ih hload
  | clear S _ => exact ⟨keysNodup_nil, fun e he => absurd he (List.not_mem_nil e)⟩

theorem loadChunks_roundtrip (l : List ((ℤ × ℤ) × Chunk)) :
    ∀ acc : JMap (ℤ × ℤ) Chunk, keysNodup (acc ++ l) →
    (∀ e ∈ l, WFChunkEntry e) →
    loadChunks acc (l.map snapRecord) = .ok ⟨acc ++ l⟩ := by
  induction l with
  | nil =>
    intro acc _ _
    simp [loadChunks]
  | cons e t ih =>
    intro acc hn hwf
    have hwfe := hwf e (List.mem_cons_self _ _)
    have hchunk : (⟨e.2.x, e.2.z,
        e.2.blocks.foldl (fun m e' => jset m e'.1 e'.2) [],
        e.2.waterBlocks.foldl (fun m e' => jset m e'.1 e'.2) [],
        e.2.generated || true⟩ : Chunk) = e.2 := by
      rw [jset_rebuild _ hwfe.2.1, jset_rebuild _ hwfe.2.2, Bool.or_true]
      rw [← hwfe.1]
    have hkey : e.1 ∉ acc.map Prod.fst := by
      unfold keysNodup at hn
      rw [List.map_append, List.nodup_append] at hn
      intro hmem
      exact hn.2.2 hmem (by simp)
    have hstep : jset acc e.1 e.2 = acc ++ [e] := jset_eq_append e.2 hkey
    simp only [List.map_cons, loadChunks, loadOneChunk, snapRecord, fieldEntries]
    rw [hchunk, hstep]
    have hn' : keysNodup ((acc ++ [e]) ++ t) := by
      simpa using hn
    have := ih (acc ++ [e]) hn' (fun e' he' => hwf e' (List.mem_cons_of_mem _ he'))
    rw [this]
    simp

theorem roundtrip_of_wf {W : Store} (h : WFStore W) (S0 : Store) :
    loadWorldData S0 (getWorldData W) = .ok W := by
  unfold loadWorldData getWorldData
  have := loadChunks_roundtrip W.chunks [] (by simpa using h.1) h.2
  simpa using this

theorem jget_block_generateChunk_none (env : GenEnv) (cx cz wx wz y : ℤ)
    (hy1 : clampedHeight env wx wz < y) (hy2 : y ≤ 20) :
    jget (generateChunk env cx cz).blocks ⟨wx, y, wz⟩ = none := by
  cases hjb : jget (generateChunk env cx cz).blocks ⟨wx, y, wz⟩ with
  | none => rfl
  | some b =>
    exfalso
    have hmem := jget_mem hjb
    have hinv := (goodGen_generateChunk env cx cz).2.1 _ hmem
    have hpos : b.position = ⟨wx, y, wz⟩ := hinv.1.symm
    have hyb : b.position.y ≤ 20 := by
      rw [hpos]
      simpa [Pos_mk_y] using hy2
    have hlow := hinv.2.2 hyb
    rw [hpos] at hlow
    simp only [Pos_mk_x, Pos_mk_y, Pos_mk_z] at hlow
    omega

theorem fieldEntries_ok {α : Type} {f : JField α} (h : f ≠ .nonArray) :
    ∃ m, fieldEntries f = .ok m := by
  cases f with
  | missing => exact ⟨[], rfl⟩
  | entries l => exact ⟨_, rfl⟩
  | nonArray => exact absurd rfl h

theorem loadChunks_ok (l : List ((ℤ × ℤ) × ChunkRecord)) :
    ∀ acc : JMap (ℤ × ℤ) Chunk,
    (∀ e ∈ l, e.2.blocks ≠ .nonArray ∧ e.2.waterBlocks ≠ .nonArray) →
    ∃ S1, loadChunks acc l = .ok S1 := by
  induction l with
  | nil =>
    intro acc _
    exact ⟨⟨acc⟩, rfl⟩
  | cons e t ih =>
    intro acc h
    have he := h e (List.mem_cons_self _ _)
    obtain ⟨bs, hbs⟩ := fieldEntries_ok (α := Block) he.1
    obtain ⟨ws, hws⟩ := fieldEntries_ok (α := WaterBlock) he.2
    obtain ⟨S1, hS1⟩ := ih (jset acc e.1 ⟨e.2.x, e.2.z, bs, ws, e.2.generated || true⟩)
      (fun e' he' => h e' (List.mem_cons_of_mem _ he'))
    refine ⟨S1, ?_⟩
    unfold loadChunks loadOneChunk
    rw [hbs, hws]
    exact hS1

set_option maxRecDepth 200000 in
/-- C1, counterexample.  The claim states that every entry of a generated
chunk, including the tree-placement step's, has a derived chunk coordinate
equal to the chunk's own coordinate.  With tree-eligible height 25 at the
origin column of chunk (0,0) and the leaf draw at canopy offset (-2,-2) —
an outcome the uncontrolled `Math.random` stream can produce — the
generated chunk's own blocks map holds a leaf block at position
(-2, 32, -2), whose derived chunk coordinate is (-1, -1), not (0, 0). -/
theorem c1_chunk_locality_cex :
    jget (generateChunk envTree 0 0).blocks ⟨-2, 32, -2⟩ =
      some ⟨⟨-2, 32, -2⟩, .grass⟩ ∧
    posChunkCoord ⟨-2, 32, -2⟩ = (-1, -1) ∧
    posChunkCoord ⟨-2, 32, -2⟩ ≠ ((0 : ℤ), (0 : ℤ)) := by
  refine ⟨by decide, ?_, ?_⟩
  · have h1 : ⌊((-2 : ℤ) : ℚ) / 8⌋ = -1 := by norm_num
    unfold posChunkCoord getChunkCoord
    rw [show ((⟨-2, 32, -2⟩ : Pos).x : ℚ) = ((-2 : ℤ) : ℚ) from rfl,
      show ((⟨-2, 32, -2⟩ : Pos).z : ℚ) = ((-2 : ℤ) : ℚ) from rfl, h1]
  · intro h
    have h1 : ⌊((-2 : ℤ) : ℚ) / 8⌋ = -1 := by norm_num
    unfold posChunkCoord getChunkCoord at h
    rw [show ((⟨-2, 32, -2⟩ : Pos).x : ℚ) = ((-2 : ℤ) : ℚ) from rfl, h1] at h
    exact absurd (congrArg Prod.fst h) (by decide)

/-- C1, amended.  Every waterBlocks entry of a generated chunk is keyed by
its own position and its derived chunk coordinate equals the chunk's own
coordinate; every blocks entry is keyed by its own position and lies within
the chunk's 8×8 footprint widened by at most 2 blocks on each side in x and
z (the spill of the tree leaf canopy), instead of always deriving to the
chunk's own coordinate. -/
theorem c1_chunk_locality_amended (env : GenEnv) (cx cz : ℤ) :
    (∀ e ∈ (generateChunk env cx cz).waterBlocks,
      e.1 = e.2.position ∧ posChunkCoord e.2.position = (cx, cz)) ∧
    (∀ e ∈ (generateChunk env cx cz).blocks,
      e.1 = e.2.position ∧ inBand cx cz e.2.position) := by
  obtain ⟨hw, hb, _⟩ := goodGen_generateChunk env cx cz
  constructor
  · intro e he
    obtain ⟨hkey, _, hfoot, _⟩ := hw e he
    exact ⟨hkey, posChunkCoord_of_footprint hfoot⟩
  · intro e he
    obtain ⟨hkey, hband, _⟩ := hb e he
    exact ⟨hkey, hband⟩

set_option maxRecDepth 200000 in
/-- C1, amended, witness at a concrete environment, chunk and entries. -/
theorem c1_chunk_locality_amended_witness :
    ((⟨0, 1, 0⟩, (⟨⟨0, 1, 0⟩, 1⟩ : WaterBlock)) ∈
        (generateChunk envFlat 0 0).waterBlocks ∧
      posChunkCoord (⟨0, 1, 0⟩ : Pos) = (0, 0)) ∧
    ((⟨0, 0, 0⟩, (⟨⟨0, 0, 0⟩, BlockType.sand⟩ : Block)) ∈
        (generateChunk envFlat 0 0).blocks ∧
      inBand 0 0 ⟨0, 0, 0⟩) := by
  have hw : jget (generateChunk envFlat 0 0).waterBlocks ⟨0, 1, 0⟩ =
      some ⟨⟨0, 1, 0⟩, 1⟩ :=
    jget_water_generateChunk envFlat 0 0 0 0 1
      ⟨by decide, by decide, by decide, by decide⟩ (by decide) (by decide) (by decide)
  have hmemw := jget_mem hw
  have hb : jget (generateChunk envFlat 0 0).blocks ⟨0, 0, 0⟩ =
      some ⟨⟨0, 0, 0⟩, BlockType.sand⟩ := by decide
  have hmemb := jget_mem hb
  exact ⟨⟨hmemw, ((c1_chunk_locality_amended envFlat 0 0).1 _ hmemw).2⟩,
    ⟨hmemb, ((c1_chunk_locality_amended envFlat 0 0).2 _ hmemb).2⟩⟩

/-- C2.  For every reachable store, restoring its own snapshot into any
manager rebuilds exactly the same store: same chunk keys in the same
order, and per chunk the same coordinates, blocks entries, waterBlocks
entries, and ready flag. -/
theorem c2_snapshot_roundtrip_exact (env : GenEnv) (W : Store)
    (h : Reachable env W) (S0 : Store) :
    loadWorldData S0 (getWorldData W) = .ok W :=
  roundtrip_of_wf (wf_reachable h) S0

/-- C2, witness: a store reached by restoring a small snapshot
round-trips to itself. -/
theorem c2_snapshot_roundtrip_exact_witness :
    loadWorldData emptyStore (getWorldData store1) = .ok store1 :=
  c2_snapshot_roundtrip_exact envFlat store1
    (Reachable.load emptyStore payload1 store1 Reachable.empty rfl) emptyStore

/-- C3, counterexample.  The claim states that `loadWorldData` returns
without throwing on every malformed payload, including non-list
`blocks`/`waterBlocks` fields, degrading to a no-op.  On a payload whose
chunk record carries a truthy non-array `blocks` value the call throws a
`TypeError` (the `.error` case) after `chunks.clear()`, leaving the
previously non-empty store empty rather than untouched. -/
theorem c3_restore_throws_cex :
    loadWorldData store1 badPayload = .error ⟨[]⟩ ∧ store1 ≠ (⟨[]⟩ : Store) := by
  exact ⟨rfl, by decide⟩

/-- C3, amended.  A null payload or a payload without a `chunks` field is
tolerated: `loadWorldData` returns without modification (and the
`WorldManager` wrapper falls back to fresh terrain generation on null);
chunk records whose `blocks`/`waterBlocks` fields are missing or otherwise
falsy are tolerated as empty.  But on a chunk record with a truthy
non-array `blocks` or `waterBlocks` field the restore throws after
clearing the store; only payloads whose fields are all falsy-or-array are
guaranteed not to throw. -/
theorem c3_restore_tolerates_missing_fields (S : Store) (d : Payload)
    (h : payloadFieldsOk d) :
    (∃ S1, loadWorldData S d = .ok S1) ∧
    loadWorldData S none = .ok S ∧
    (∀ obj : PayloadObj, obj.chunks = none → loadWorldData S (some obj) = .ok S) ∧
    (∀ env : GenEnv, wmLoadWorldData env S none = .ok (generateTerrain env S)) := by
  refine ⟨?_, rfl, ?_, fun env => rfl⟩
  · cases d with
    | none => exact ⟨S, rfl⟩
    | some obj =>
      cases obj with
      | mk cf =>
        cases cf with
        | none => exact ⟨S, rfl⟩
        | some l => exact loadChunks_ok l [] h
  · intro obj hobj
    cases obj with
    | mk cf =>
      cases cf with
      | none => rfl
      | some l => cases hobj

/-- C3, amended, witness: a record with both entry fields missing loads
without throwing, and the null/no-op and fresh-world cases at a concrete
store. -/
theorem c3_restore_tolerates_missing_fields_witness :
    (∃ S1, loadWorldData store1 partialPayload = .ok S1) ∧
    loadWorldData store1 none = .ok store1 ∧
    wmLoadWorldData envFlat store1 none = .ok (generateTerrain envFlat store1) := by
  have h := c3_restore_tolerates_missing_fields store1 partialPayload (by decide)
  exact ⟨h.1, h.2.1, h.2.2.2 envFlat⟩

/-- C4.  After any finite sequence of place/remove/streaming operations on
a fresh world, no coordinate key is present both in some cached chunk's
blocks map and in some cached chunk's waterBlocks map. -/
theorem c4_solid_water_exclusive (env : GenEnv) (ops : List Op) (p : Pos) :
    (hasSolidAt (applyOps env ops) p && hasWaterAt (applyOps env ops) p) = false :=
  storeInv_exclusive (storeInv_applyOps env ops) p

/-- C5.  `checkCollision` corrects the axes in the fixed order X, Y, Z,
testing each axis from the already-corrected components and snapping a
colliding axis back to its pre-delta value: whenever the X-only move
collides, the Y move from the X-snapped position does not, and the Z move
from the X-snapped, Y-applied position does not, the result keeps `x` at
its pre-delta value while the full Y and Z components are applied
(sliding, not stopping). -/
theorem c5_axis_order_sliding (idx : CollisionIndex) (p v : Vec3)
    (hX : hasCollisionAtPosition idx ⟨p.x + v.x, p.y, p.z⟩ = true)
    (hY : hasCollisionAtPosition idx ⟨p.x, p.y + v.y, p.z⟩ = false)
    (hZ : hasCollisionAtPosition idx ⟨p.x, p.y + v.y, p.z + v.z⟩ = false) :
    checkCollision idx p v = ⟨p.x, p.y + v.y, p.z + v.z⟩ := by
  unfold checkCollision
  dsimp only
  rw [hX, if_pos rfl, hY, if_neg (by simp), hZ, if_neg (by simp)]

set_option maxHeartbeats 1600000 in
/-- C5, witness: an observer at (-1, 1/2, 0) moving by (+3/4, 0, +3/4)
toward the occupied cell (0,0,0) is stopped on X but slides through the
full Z component. -/
theorem c5_axis_order_sliding_witness :
    checkCollision idx1 ⟨-1, 1/2, 0⟩ ⟨3/4, 0, 3/4⟩ = ⟨-1, 1/2, 3/4⟩ := by
  have hXe : hasCollisionAtPosition idx1 ⟨-1/4, 1/2, 0⟩ = true := by
    unfold hasCollisionAtPosition getPlayerBoundingBox
    dsimp only
    norm_num [intRange, intersectsBox, getBlockBoundingBox]
    refine ⟨2, by norm_num, 1, by norm_num, 1, by norm_num, by decide,
      by norm_num, by norm_num, by norm_num, by norm_num, by norm_num, by norm_num⟩
  have hYe : hasCollisionAtPosition idx1 ⟨-1, 1/2, 0⟩ = false := by
    unfold hasCollisionAtPosition getPlayerBoundingBox
    dsimp only
    norm_num [intRange, intersectsBox, getBlockBoundingBox]
    intro a ha x hx x1 hx1 hj
    exfalso
    simp only [idx1, updateBlocks, List.foldl, jset, jhas, jget, Pos.mk.injEq] at hj
    rw [if_neg (by omega)] at hj
    simp [jget] at hj
  have hZe : hasCollisionAtPosition idx1 ⟨-1, 1/2, 3/4⟩ = false := by
    unfold hasCollisionAtPosition getPlayerBoundingBox
    dsimp only
    norm_num [intRange, intersectsBox, getBlockBoundingBox]
    intro a ha x hx x1 hx1 hj
    exfalso
    simp only [idx1, updateBlocks, List.foldl, jset, jhas, jget, Pos.mk.injEq] at hj
    rw [if_neg (by omega)] at hj
    simp [jget] at hj
  have happ := c5_axis_order_sliding idx1 ⟨-1, 1/2, 0⟩ ⟨3/4, 0, 3/4⟩
    (by dsimp only; rw [show ((-1 : ℚ) + 3/4) = -1/4 by norm_num]; exact hXe)
    (by dsimp only; rw [show ((1/2 : ℚ) + 0) = 1/2 by norm_num]; exact hYe)
    (by
      dsimp only
      rw [show ((1/2 : ℚ) + 0) = 1/2 by norm_num,
        show ((0 : ℚ) + 3/4) = 3/4 by norm_num]
      exact hZe)
  rw [happ]
  norm_num [Vec3.mk.injEq]

/-- C6.  In every generated chunk, every footprint column whose clamped
height is below sea level carries, at every `y` with `h < y ≤ 20`, a water
block of level `1.0` keyed at that exact position, and no solid block. -/
theorem c6_sea_fill (env : GenEnv) (cx cz wx wz y : ℤ)
    (hx1 : 8 * cx ≤ wx) (hx2 : wx ≤ 8 * cx + 7)
    (hz1 : 8 * cz ≤ wz) (hz2 : wz ≤ 8 * cz + 7)
    (hh : clampedHeight env wx wz < 20)
    (hy1 : clampedHeight env wx wz < y) (hy2 : y ≤ 20) :
    jget (generateChunk env cx cz).waterBlocks ⟨wx, y, wz⟩ =
      some ⟨⟨wx, y, wz⟩, 1⟩ ∧
    jget (generateChunk env cx cz).blocks ⟨wx, y, wz⟩ = none :=
  ⟨jget_water_generateChunk env cx cz wx wz y ⟨hx1, hx2, hz1, hz2⟩ hh hy1 hy2,
   jget_block_generateChunk_none env cx cz wx wz y hy1 hy2⟩

/-- C6, witness at the flat environment, chunk (0,0), column (0,0), y=10. -/
theorem c6_sea_fill_witness :
    jget (generateChunk envFlat 0 0).waterBlocks ⟨0, 10, 0⟩ =
      some ⟨⟨0, 10, 0⟩, 1⟩ ∧
    jget (generateChunk envFlat 0 0).blocks ⟨0, 10, 0⟩ = none :=
  c6_sea_fill envFlat 0 0 0 0 10 (by decide) (by decide) (by decide) (by decide)
    (by decide) (by decide) (by decide)

/-- C7.  Restoring the snapshot of any reachable world produces a store
whose flattened solid-block list and water list equal those of the
original. -/
theorem c7_roundtrip_flattened_sets (env : GenEnv) (W S0 W1 : Store)
    (h : Reachable env W)
    (hload : loadWorldData S0 (getWorldData W) = .ok W1) :
    getAllLoadedBlocks W1 = getAllLoadedBlocks W ∧
    getAllLoadedWaterBlocks W1 = getAllLoadedWaterBlocks W := by
  have hrt := roundtrip_of_wf (wf_reachable h) S0
  have : W1 = W := by
    have := hload.symm.trans hrt
    exact Except.ok.inj this
  rw [this]
  exact ⟨rfl, rfl⟩

/-- C7, witness at a small reachable store. -/
theorem c7_roundtrip_flattened_sets_witness :
    getAllLoadedBlocks store1 = getAllLoadedBlocks store1 ∧
    getAllLoadedWaterBlocks store1 = getAllLoadedWaterBlocks store1 :=
  c7_roundtrip_flattened_sets envFlat store1 emptyStore store1
    (Reachable.load emptyStore payload1 store1 Reachable.empty rfl)
    (roundtrip_of_wf
      (wf_reachable (show Reachable envFlat store1 from
        Reachable.load emptyStore payload1 store1 Reachable.empty rfl))
      emptyStore)

/-- C8.  `placeBlock` at an in-range height with a non-water material, on a
store with no chunk cached at the target's chunk coordinate, first
generates and caches that chunk (ready flag set) and then records the
block: the cache afterwards holds, at the target chunk coordinate, exactly
the generated chunk with the water at the position removed and the block
inserted. -/
theorem c8_place_generates_chunk (env : GenEnv) (S : Store) (p : Pos)
    (t : BlockType) (hnone : jget S.chunks (posChunkCoord p) = none)
    (hy1 : 0 ≤ p.y) (hy2 : p.y ≤ 420) (ht : ¬ t = .water) :
    jget (placeBlock env S p t).chunks (posChunkCoord p) =
      some ⟨(generateChunk env (posChunkCoord p).1 (posChunkCoord p).2).x,
            (generateChunk env (posChunkCoord p).1 (posChunkCoord p).2).z,
            jset (generateChunk env (posChunkCoord p).1 (posChunkCoord p).2).blocks
              p ⟨p, t⟩,
            jdelete (generateChunk env (posChunkCoord p).1 (posChunkCoord p).2).waterBlocks
              p,
            true⟩ ∧
    jget (jset (generateChunk env (posChunkCoord p).1 (posChunkCoord p).2).blocks
      p ⟨p, t⟩) p = some ⟨p, t⟩ := by
  have hg : (generateChunk env (posChunkCoord p).1 (posChunkCoord p).2).generated = true :=
    (goodGen_generateChunk env (posChunkCoord p).1 (posChunkCoord p).2).2.2.2.2.2.2
  constructor
  · unfold placeBlock
    dsimp only
    rw [if_neg (by omega), if_neg ht]
    unfold getOrGenerateChunk
    dsimp only
    have hnone1 : jget S.chunks ((posChunkCoord p).1, (posChunkCoord p).2) = none := hnone
    rw [hnone1]
    dsimp only
    rw [jget_jset_self]
    rw [← hg]
  · exact jget_jset_self _ _ _

/-- C8, witness: placing stone at (3, 25, 3) on an empty store. -/
theorem c8_place_generates_chunk_witness :
    jget (placeBlock envFlat emptyStore ⟨3, 25, 3⟩ .stone).chunks
        (posChunkCoord ⟨3, 25, 3⟩) =
      some ⟨(generateChunk envFlat (posChunkCoord ⟨3, 25, 3⟩).1
              (posChunkCoord ⟨3, 25, 3⟩).2).x,
            (generateChunk envFlat (posChunkCoord ⟨3, 25, 3⟩).1
              (posChunkCoord ⟨3, 25, 3⟩).2).z,
            jset (generateChunk envFlat (posChunkCoord ⟨3, 25, 3⟩).1
              (posChunkCoord ⟨3, 25, 3⟩).2).blocks ⟨3, 25, 3⟩ ⟨⟨3, 25, 3⟩, .stone⟩,
            jdelete (generateChunk envFlat (posChunkCoord ⟨3, 25, 3⟩).1
              (posChunkCoord ⟨3, 25, 3⟩).2).waterBlocks ⟨3, 25, 3⟩,
            true⟩ ∧
    jget (jset (generateChunk envFlat (posChunkCoord ⟨3, 25, 3⟩).1
      (posChunkCoord ⟨3, 25, 3⟩).2).blocks ⟨3, 25, 3⟩ ⟨⟨3, 25, 3⟩, .stone⟩)
      ⟨3, 25, 3⟩ = some ⟨⟨3, 25, 3⟩, .stone⟩ :=
  c8_place_generates_chunk envFlat emptyStore ⟨3, 25, 3⟩ .stone rfl
    (by decide) (by decide) (by decide)

/-- C9.  `getGroundHeight x z` scans the collision-index column
`(⌊x/0.5⌋, ⌊z/0.5⌋)` from `y = 200` down to `y = -10`: if some `y` in that
range is occupied it returns `(y0 + 1) · 0.5 + 1` for the highest occupied
`y0`, and otherwise the minimum stand height `1`. -/
theorem c9_ground_height (idx : CollisionIndex) (x z : ℚ) :
    (∀ y0 : ℤ, -10 ≤ y0 → y0 ≤ 200 →
      jhas idx ⟨⌊x / (1/2 : ℚ)⌋, y0, ⌊z / (1/2 : ℚ)⌋⟩ = true →
      (∀ y ∈ intRange (y0 + 1) 200,
        jhas idx ⟨⌊x / (1/2 : ℚ)⌋, y, ⌊z / (1/2 : ℚ)⌋⟩ = false) →
      getGroundHeight idx x z = ((y0 : ℚ) + 1) * (1/2) + 1) ∧
    ((∀ y ∈ intRange (-10) 200,
        jhas idx ⟨⌊x / (1/2 : ℚ)⌋, y, ⌊z / (1/2 : ℚ)⌋⟩ = false) →
      getGroundHeight idx x z = 1) := by
  constructor
  · intro y0 h1 h2 h3 h4
    refine scanDown_found idx _ _ y0 211 h1 (by omega) h3 ?_
    intro y hy1 hy2
    exact h4 y (mem_intRange.mpr ⟨by omega, by omega⟩)
  · intro h
    refine scanDown_not_found idx _ _ 211 ?_
    intro y h1 h2
    exact h y (mem_intRange.mpr ⟨h1, by omega⟩)

set_option maxRecDepth 40000 in
/-- C9, witness: with a stone block at (0,5,0), the ground height at the
origin is `(5+1) · 0.5 + 1 = 4`. -/
theorem c9_ground_height_witness : getGroundHeight idx9 0 0 = 4 := by
  have hf : ⌊(0 : ℚ) / (1/2 : ℚ)⌋ = 0 := by norm_num
  have happ := (c9_ground_height idx9 0 0).1 5 (by norm_num) (by norm_num)
    (by rw [hf]; decide) (by rw [hf]; decide)
  rw [happ]
  norm_num

/-- C10.  `removeBlock` at a position whose chunk is cached and whose
height is at or below sea level leaves a water block of level `1.0` keyed
at that exact position (and no solid block there), with no requirement
that a solid block existed beforehand. -/
theorem c10_remove_below_sea_creates_water (S : Store) (p : Pos) (c : Chunk)
    (hc : jget S.chunks (posChunkCoord p) = some c) (hy : p.y ≤ 20) :
    ∃ c1, jget (removeBlock S p).chunks (posChunkCoord p) = some c1 ∧
      jget c1.waterBlocks p = some ⟨p, 1⟩ ∧
      jget c1.blocks p = none := by
  unfold removeBlock
  dsimp only
  rw [hc]
  dsimp only
  rw [if_pos hy]
  refine ⟨_, jget_jset_self _ _ _, ?_, ?_⟩
  · exact jget_jset_self _ _ _
  · exact jget_jdelete_self _ _

theorem c10_remove_below_sea_creates_water_witness :
    ∃ c1, jget (removeBlock store1 ⟨0, 10, 0⟩).chunks
        (posChunkCoord ⟨0, 10, 0⟩) = some c1 ∧
      jget c1.waterBlocks ⟨0, 10, 0⟩ = some ⟨⟨0, 10, 0⟩, 1⟩ ∧
      jget c1.blocks ⟨0, 10, 0⟩ = none := by
  have hcc : posChunkCoord (⟨0, 10, 0⟩ : Pos) = (0, 0) := by
    unfold posChunkCoord getChunkCoord
    norm_num
  refine c10_remove_below_sea_creates_water store1 ⟨0, 10, 0⟩
    ⟨0, 0, [(⟨1, 2, 3⟩, ⟨⟨1, 2, 3⟩, .stone⟩)],
      [(⟨0, 10, 0⟩, ⟨⟨0, 10, 0⟩, 1⟩)], true⟩ ?_ (by decide)
  rw [hcc]
  rfl

end MC
